import Mathlib

/-!
Verification of the Watercooler thread-document parsing engine
(`src/watercooler_dashboard/thread_parser.py`), shallowly embedded in Lean.

Strings are modelled as `List Char`.  Python `str.strip` / `str.splitlines` /
`str.lower` / `str.upper` are modelled character-wise on the ASCII fragment
(the engine compares only ASCII keywords); Python's `\w` character class is
modelled as ASCII alphanumeric or underscore.  The two regular expressions of
the header/entry field grammar, the entry delimiter split
`re.split(r"\n---\s*\n(?=Entry:)", ...)`, the `Entry:` author/actor/timestamp
pattern and the `re.sub(r"\s*\(.*\)\s*$", "", ...)` normalisation are
translated into explicit functions that reproduce the backtracking behaviour
of the Python `re` engine on the inputs the pipeline feeds them (single lines
produced by `splitlines`, hence newline-free; the field matchers reject inputs
holding a newline, which is what `re` does on the stripped lines the parser
passes).  The filesystem is modelled as an association list from paths to file
contents; `Path.read_text` / `Path.write_text` become lookup and single-entry
replacement.  Git side effects and logging are skipped: they do not influence
any parsed data.
-/

abbrev Str := List Char

/-- Python whitespace class `\s` (ASCII part), also the `str.strip` set. -/
def pyws (c : Char) : Bool :=
  c = ' ' || c = '\t' || c = '\n' || c = '\r' || c = '\x0b' || c = '\x0c'

/-- Character class `[\w \-]` of the field grammar: word char, space or hyphen. -/
def wordish (c : Char) : Bool :=
  c.isAlphanum || c = '_' || c = ' ' || c = '-'

/-- Python `str.strip()`. -/
def pstrip (s : Str) : Str :=
  ((s.dropWhile pyws).reverse.dropWhile pyws).reverse

/-- Python `str.lower()` (ASCII). -/
def lowerS (s : Str) : Str := s.map Char.toLower

/-- Python `str.upper()` (ASCII). -/
def upperS (s : Str) : Str := s.map Char.toUpper

/-- Python `str.startswith`. -/
def startsWithL : Str → Str → Bool
  | [], _ => true
  | _ :: _, [] => false
  | p :: ps, c :: cs => p = c && startsWithL ps cs

/-- Python `needle in haystack` substring test. -/
def containsSeq (needle : Str) : Str → Bool
  | [] => startsWithL needle []
  | c :: cs => startsWithL needle (c :: cs) || containsSeq needle cs

/-- Python `str.splitlines()` restricted to `'\n'` separators
(thread files are plain `'\n'`-separated text). -/
def splitLines : Str → List Str
  | [] => []
  | c :: cs =>
    if c = '\n' then [] :: splitLines cs
    else
      match splitLines cs with
      | [] => [[c]]
      | l :: ls => (c :: l) :: ls

/-- `"\n".join(lines)`. -/
def joinNL : List Str → Str
  | [] => []
  | [l] => l
  | l :: ls => l ++ '\n' :: joinNL ls

/-- Insertion-ordered map, the model of a Python `dict[str, str]`. -/
abbrev KVList := List (Str × Str)

def alGet : KVList → Str → Option Str
  | [], _ => none
  | (k', v') :: r, k => if k' = k then some v' else alGet r k

/-- `d[k] = v`: replace in place if present (Python dicts keep the original
slot on re-assignment), else append. -/
def alSet : KVList → Str → Str → KVList
  | [], k, v => [(k, v)]
  | (k', v') :: r, k, v =>
    if k' = k then (k', v) :: r else (k', v') :: alSet r k v

/-- `d.pop(k, None)`. -/
def alPop (m : KVList) (k : Str) : KVList :=
  m.filter (fun p => decide (p.1 ≠ k))

/-- Header field pattern `^([\w \-]+):\s*(.+)$` of `_parse_header_lines`,
matched against an already stripped line; returns stripped key and value.
A line holding `'\n'` never matches (`.` does not cross newlines and the
parser strips each line before matching). -/
def matchFieldStrict (s : Str) : Option (Str × Str) :=
  if '\n' ∈ s then none
  else if s.takeWhile wordish = [] then none
  else
    match s.dropWhile wordish with
    | ':' :: r =>
      if r.dropWhile pyws = [] then none
      else some (pstrip (s.takeWhile wordish), pstrip (r.dropWhile pyws))
    | _ => none

/-- Entry sub-header pattern `^([\w \-]+):\s*(.*)$` of `_parse_entries`:
identical except that the value may be empty. -/
def matchFieldLoose (s : Str) : Option (Str × Str) :=
  if '\n' ∈ s then none
  else if s.takeWhile wordish = [] then none
  else
    match s.dropWhile wordish with
    | ':' :: r => some (pstrip (s.takeWhile wordish), pstrip (r.dropWhile pyws))
    | _ => none

/-- The metadata/field-order accumulation loop of `_parse_header_lines`. -/
def headerFold : KVList → List Str → List Str → KVList × List Str
  | m, o, [] => (m, o)
  | m, o, l :: ls =>
    if pstrip l = [] then headerFold m o ls
    else
      match matchFieldStrict (pstrip l) with
      | none => headerFold m o ls
      | some (k, v) => headerFold (alSet m k v) (o ++ [k]) ls

/-- `ThreadParser._parse_header_lines`: title, metadata map, key order. -/
def parseHeaderLines (hl : List Str) (dflt : Str) : Str × KVList × List Str :=
  match hl with
  | [] => (dflt, [], [])
  | l0 :: rest =>
    if startsWithL ['#'] (pstrip l0) then
      (if pstrip ((pstrip l0).dropWhile (fun c => c = '#')) = [] then dflt
       else pstrip ((pstrip l0).dropWhile (fun c => c = '#')),
       headerFold [] [] rest)
    else (dflt, headerFold [] [] (l0 :: rest))

/-- The header scan of `_split_header_and_body`: header lines before the
first bare `---` line, remaining lines after it. -/
def hdrSpan : List Str → List Str × List Str
  | [] => ([], [])
  | l :: ls =>
    if pstrip l = ['-', '-', '-'] then ([], ls)
    else
      let hb := hdrSpan ls
      (l :: hb.1, hb.2)

/-- `while header_lines and not header_lines[-1].strip(): pop()`. -/
def dropTrailBlank (ls : List Str) : List Str :=
  (ls.reverse.dropWhile (fun l => decide (pstrip l = []))).reverse

/-- `ThreadParser._split_header_and_body`. -/
def splitHeaderAndBody (content : Str) : List Str × Str :=
  let hb := hdrSpan (splitLines content)
  let header := dropTrailBlank hb.1
  let body := hb.2.dropWhile (fun l => decide (pstrip l = ['-', '-', '-']))
  (header, pstrip (joinNL body))

/-- One attempt of the delimiter `\n---\s*\n(?=Entry:)` just after a `'\n'`:
the text must continue with `---`, then a nonempty whitespace run whose last
character is `'\n'` (the greedy `\s*` backtracks to the last newline of the
run), immediately followed by `Entry:`.  Returns the suffix after the match. -/
def tryDelim : Str → Option Str
  | '-' :: '-' :: '-' :: r =>
    let w := r.takeWhile pyws
    let rest := r.dropWhile pyws
    if w ≠ [] ∧ w.getLast? = some '\n' ∧ startsWithL ('E' :: 'n' :: 't' :: 'r' :: 'y' :: ':' :: []) rest then
      some rest
    else none
  | _ => none

/-- Leftmost match of the entry delimiter: text before it and text after it. -/
def findDelim : Str → Option (Str × Str)
  | [] => none
  | c :: cs =>
    if c = '\n' then
      match tryDelim cs with
      | some r => some ([], r)
      | none => (findDelim cs).map (fun p => (c :: p.1, p.2))
    else (findDelim cs).map (fun p => (c :: p.1, p.2))

theorem dropWhile_len_le (p : Char → Bool) : ∀ l : Str, (l.dropWhile p).length ≤ l.length
  | [] => Nat.le_refl _
  | c :: l => by
    rw [List.dropWhile_cons]
    split
    · exact Nat.le_succ_of_le (dropWhile_len_le p l)
    · exact Nat.le_refl _

theorem tryDelim_length {cs r : Str} (h : tryDelim cs = some r) :
    r.length ≤ cs.length := by
  unfold tryDelim at h
  split at h
  · dsimp only at h
    split at h
    · cases h
      rename_i t _
      have := dropWhile_len_le pyws t
      simp only [List.length_cons]
      omega
    · exact absurd h (by simp)
  · exact absurd h (by simp)

theorem findDelim_length {cs b a : Str} (h : findDelim cs = some (b, a)) :
    a.length < cs.length := by
  induction cs generalizing b with
  | nil => simp [findDelim] at h
  | cons c cs ih =>
    unfold findDelim at h
    split at h
    · split at h
      · rename_i htd
        cases h
        have := tryDelim_length htd
        simp only [List.length_cons]
        omega
      · simp only [Option.map_eq_some'] at h
        obtain ⟨⟨b', a'⟩, hfd, hp⟩ := h
        cases hp
        exact Nat.lt_succ_of_lt (ih hfd)
    · simp only [Option.map_eq_some'] at h
      obtain ⟨⟨b', a'⟩, hfd, hp⟩ := h
      cases hp
      exact Nat.lt_succ_of_lt (ih hfd)

/-- Fuelled splitting loop; the fuel only needs to exceed the text length
(each delimiter consumes at least one character). -/
def splitSegsGo : Nat → Str → List Str
  | 0, cs => [cs]
  | n + 1, cs =>
    match findDelim cs with
    | none => [cs]
    | some (b, a) => b :: splitSegsGo n a

/-- `re.split(r"\n---\s*\n(?=Entry:)", bodyText)`. -/
def splitSegs (cs : Str) : List Str := splitSegsGo (cs.length + 1) cs

theorem splitSegsGo_fuel : ∀ (n m : Nat) (cs : Str), cs.length < n → cs.length < m →
    splitSegsGo n cs = splitSegsGo m cs
  | 0, _, _, hn, _ => absurd hn (Nat.not_lt_zero _)
  | _ + 1, 0, _, _, hm => absurd hm (Nat.not_lt_zero _)
  | n + 1, m + 1, cs, hn, hm => by
    show (match findDelim cs with
      | none => [cs]
      | some (b, a) => b :: splitSegsGo n a) =
      (match findDelim cs with
      | none => [cs]
      | some (b, a) => b :: splitSegsGo m a)
    cases hfd : findDelim cs with
    | none => rfl
    | some ba =>
      obtain ⟨b, a⟩ := ba
      have hlt := findDelim_length hfd
      have hrec := splitSegsGo_fuel n m a
        (Nat.lt_of_lt_of_le hlt (Nat.lt_succ_iff.mp hn))
        (Nat.lt_of_lt_of_le hlt (Nat.lt_succ_iff.mp hm))
      show b :: splitSegsGo n a = b :: splitSegsGo m a
      rw [hrec]

theorem splitSegs_none {cs : Str} (h : findDelim cs = none) : splitSegs cs = [cs] := by
  show (match findDelim cs with
    | none => [cs]
    | some (b, a) => b :: splitSegsGo cs.length a) = [cs]
  rw [h]

theorem splitSegs_some {cs b a : Str} (h : findDelim cs = some (b, a)) :
    splitSegs cs = b :: splitSegs a := by
  show (match findDelim cs with
    | none => [cs]
    | some (b, a) => b :: splitSegsGo cs.length a) = b :: splitSegs a
  rw [h]
  have hlt := findDelim_length h
  show b :: splitSegsGo cs.length a = b :: splitSegs a
  rw [splitSegsGo_fuel cs.length (a.length + 1) a hlt (Nat.lt_succ_self _)]
  rfl

/-- The sub-header scan of `_parse_entries`: consume field lines from the top
of a segment; a blank line is consumed and stops the scan, a non-matching
line stops the scan and stays in the body. -/
def segMeta : KVList → List Str → KVList × List Str
  | m, [] => (m, [])
  | m, l :: ls =>
    if pstrip l = [] then (m, ls)
    else
      match matchFieldLoose l with
      | none => (m, l :: ls)
      | some kv => segMeta (alSet m kv.1 kv.2) ls

/-- The timestamp shape `\d{4}-\d{2}-\d{2}T\d{2}:\d{2}:\d{2}Z` (20 chars). -/
def isTimestampTail (cs : Str) : Bool :=
  match cs with
  | [y1, y2, y3, y4, d1, m1, m2, d2, a1, a2, tc, h1, h2, c1, n1, n2, c2, s1, s2, zc] =>
    y1.isDigit && y2.isDigit && y3.isDigit && y4.isDigit && d1 = '-' &&
    m1.isDigit && m2.isDigit && d2 = '-' && a1.isDigit && a2.isDigit &&
    tc = 'T' && h1.isDigit && h2.isDigit && c1 = ':' && n1.isDigit &&
    n2.isDigit && c2 = ':' && s1.isDigit && s2.isDigit && zc = 'Z'
  | _ => false

/-- Does a suffix match `\s+<timestamp>$`? -/
def wsThenTS (r : Str) : Bool :=
  decide (r.takeWhile pyws ≠ []) && isTimestampTail (r.dropWhile pyws)

/-- The lazy `(.+?)\)` scan inside the optional actor group: close at the
first `')'` (with a nonempty actor) after which `\s+<timestamp>$` holds. -/
def findActor : Str → Str → Option (Str × Str)
  | _, [] => none
  | acc, c :: r =>
    if c = ')' ∧ acc ≠ [] ∧ wsThenTS r then some (acc.reverse, r)
    else findActor (c :: acc) r

/-- Try `\s+\((.+?)\)\s+<timestamp>$` at this suffix; yields actor and
timestamp. -/
def tryParen (rest : Str) : Option (Str × Str) :=
  if rest.takeWhile pyws = [] then none
  else
    match rest.dropWhile pyws with
    | '(' :: r2 =>
      match findActor [] r2 with
      | some ar => some (ar.1, ar.2.dropWhile pyws)
      | none => none
    | _ => none

/-- Try `\s+<timestamp>$` at this suffix; yields the timestamp. -/
def tryNoParen (rest : Str) : Option Str :=
  if wsThenTS rest then some (rest.dropWhile pyws) else none

/-- Lazy growth of the author group `(.+?)`: at each author length try the
actor branch first (the optional group is greedy), then the bare-timestamp
branch, else extend the author by one character. -/
def entrySearch : Str → Str → Option (Str × Option Str × Str)
  | acc, rest =>
    match tryParen rest with
    | some ats => some (acc.reverse, some ats.1, ats.2)
    | none =>
      match tryNoParen rest with
      | some ts => some (acc.reverse, none, ts)
      | none =>
        match rest with
        | [] => none
        | c :: r => entrySearch (c :: acc) r

/-- `re.match(r"^(.+?)(?:\s+\((.+?)\))?\s+(<timestamp>)$", entry_line)`:
author, optional actor, timestamp. -/
def matchEntryLine : Str → Option (Str × Option Str × Str)
  | [] => none
  | c :: r => entrySearch [c] r

/-- Author / actor / timestamp derivation from the `Entry` field value. -/
def entryTriple : Option Str → Option Str × Option Str × Option Str
  | none => (none, none, none)
  | some e =>
    if e = [] then (none, none, none)
    else
      match matchEntryLine e with
      | some ats => (some (pstrip ats.1), ats.2.1.map pstrip, some (pstrip ats.2.2))
      | none => (some e, none, none)

structure Entry where
  meta : KVList
  body : Str
  author : Option Str
  actor : Option Str
  timestamp : Option Str
  title : Option Str
  role : Option Str
  type_ : Option Str
  spec : Option Str
  is_new : Bool
deriving DecidableEq

/-- Build one entry record from a stripped, nonempty segment. -/
def mkEntry (seg : Str) : Entry :=
  let mr := segMeta [] (splitLines seg)
  let ats := entryTriple (alGet mr.1 ("Entry".toList))
  { meta := mr.1
    body := pstrip (joinNL mr.2)
    author := ats.1
    actor := ats.2.1
    timestamp := ats.2.2
    title := alGet mr.1 ("Title".toList)
    role := alGet mr.1 ("Role".toList)
    type_ := alGet mr.1 ("Type".toList)
    spec := alGet mr.1 ("Spec".toList)
    is_new := containsSeq ("NEW".toList) ((alGet mr.1 ("Type".toList)).getD []) }

/-- `ThreadParser._parse_entries`. -/
def parseEntries (bodyText : Str) : List Entry :=
  if bodyText = [] then []
  else
    (splitSegs (pstrip bodyText)).filterMap (fun seg =>
      let s := pstrip seg
      if s = [] then none else some (mkEntry s))

/-- `_normalize`: strip, remove one trailing parenthesised suffix
(`re.sub(r"\s*\(.*\)\s*$", "", ...)`), lowercase.  On a stripped string the
substitution fires exactly when the string ends in `')'` and holds a `'('`;
it removes everything from the whitespace run before the first `'('`. -/
def normalizeS (name : Str) : Str :=
  let t := pstrip name
  let u :=
    if t.getLast? = some ')' ∧ '(' ∈ t then
      ((t.takeWhile (fun c => decide (c ≠ '('))).reverse.dropWhile pyws).reverse
    else t
  lowerS u

/-- `next((entry.get("author") for entry in reversed(entries) if entry.get("author")), "")`
over the author column. -/
def lastAuthA (l : List (Option Str)) : Str :=
  (l.reverse.findSome? (fun a =>
    match a with
    | some x => if x = [] then none else some x
    | none => none)).getD []

def lastAuthorOf (es : List Entry) : Str := lastAuthA (es.map Entry.author)

structure ParsedDoc where
  topic : Str
  title : Str
  status : Str
  priority : Str
  ball_owner : Str
  spec : Option Str
  created : Option Str
  last_update : Option Str
  last_title : Option Str
  entry_count : Nat
  has_new : Bool
  metadata : KVList
  header_order : List Str
  entries : List Entry
deriving DecidableEq

def clearNew (e : Entry) : Entry := { e with is_new := false }

/-- `entries[-1]["is_new"] = True`. -/
def setLastNew : List Entry → List Entry
  | [] => []
  | [e] => [{ e with is_new := true }]
  | e :: es => e :: setLastNew es

/-- `metadata.get("Status", "UNKNOWN")`. -/
def docStatus (metadata : KVList) : Str :=
  (alGet metadata ("Status".toList)).getD ("UNKNOWN".toList)

/-- The `has_new_flag` computation of `_parse_thread_file`: entries nonempty,
normalized author of the last entry that has a non-empty author is nonempty,
differs from the normalized Ball value, and the status is not CLOSED
(case-insensitively). -/
def hasNewFlag (metadata : KVList) (es0 : List Entry) : Bool :=
  decide (es0 ≠ []) && decide (normalizeS (lastAuthorOf es0) ≠ []) &&
  decide (normalizeS (lastAuthorOf es0)
    ≠ normalizeS ((alGet metadata ("Ball".toList)).getD [])) &&
  decide (upperS (docStatus metadata) ≠ "CLOSED".toList)

/-- Reset every `is_new`, then mark the last entry when the flag holds. -/
def finalizeEntries (flag : Bool) (es0 : List Entry) : List Entry :=
  if flag = true ∧ es0.map clearNew ≠ [] then setLastNew (es0.map clearNew)
  else es0.map clearNew

/-- `bool(entries) and entries[-1].get("is_new", False)`. -/
def lastIsNew (es : List Entry) : Bool :=
  decide (es ≠ []) &&
  (match es.getLast? with
   | some e => e.is_new
   | none => false)

/-- The pure body of `ThreadParser._parse_thread_file` (I/O and the
exception guard removed: on an in-memory string no exception can fire). -/
def parseThreadFileCore (content stem : Str) : ParsedDoc :=
  let hb := splitHeaderAndBody content
  let tmo := parseHeaderLines hb.1 stem
  let metadata := tmo.2.1
  let es0 := parseEntries hb.2
  let ballRaw := alGet metadata ("Ball".toList)
  let es := finalizeEntries (hasNewFlag metadata es0) es0
  let timestamps := es.filterMap (fun e =>
    match e.timestamp with
    | some t => if t = [] then none else some t
    | none => none)
  { topic := (alGet metadata ("Topic".toList)).getD stem
    title := tmo.1
    status := docStatus metadata
    priority := (alGet metadata ("Priority".toList)).getD ("P2".toList)
    ball_owner :=
      match ballRaw with
      | some b => if b = [] then "Unknown".toList else b
      | none => "Unknown".toList
    spec := alGet metadata ("Spec".toList)
    created := alGet metadata ("Created".toList)
    last_update :=
      match timestamps.getLast? with
      | some t => some t
      | none => alGet metadata ("Created".toList)
    last_title := es.reverse.findSome? (fun e =>
      match e.title with
      | some t => if t = [] then none else some t
      | none => none)
    entry_count := es.length
    has_new := lastIsNew es
    metadata := metadata
    header_order := tmo.2.2
    entries := es }

/-- The preferred key order of `_render_header`. -/
def preferredKeys : List Str :=
  ["Status".toList, "Priority".toList, "Ball".toList,
   "Spec".toList, "Topic".toList, "Created".toList]

/-- The seen-set loop: append each key not yet present. -/
def addUnseen : List Str → List Str → List Str
  | acc, [] => acc
  | acc, k :: ks => if k ∈ acc then addUnseen acc ks else addUnseen (acc ++ [k]) ks

def dedupKeys (o : List Str) : List Str := addUnseen [] o

/-- Canonical key order of `_render_header`: deduplicated field order, then
preferred keys present in the map, then remaining map keys. -/
def normOrder (m : KVList) (o : List Str) : List Str :=
  let a := addUnseen [] o
  let b := addUnseen a (preferredKeys.filter (fun k => (alGet m k).isSome))
  addUnseen b (m.map Prod.fst)

/-- `value is not None and str(value).strip()`: the value emitted for a key,
if any. -/
def emitVal (m : KVList) (k : Str) : Option Str :=
  (alGet m k).bind (fun v => if pstrip v = [] then none else some v)

/-- The key/value pairs `_render_header` emits, in emission order. -/
def renderPairs (m : KVList) (o : List Str) : KVList :=
  (normOrder m o).filterMap (fun k => (emitVal m k).map (fun v => (k, v)))

/-- `f"{key}: {value}"`. -/
def lineOf (p : Str × Str) : Str := p.1 ++ ':' :: ' ' :: p.2

/-- `ThreadParser._render_header`: `# <title>` then one `key: value` line per
canonical key with a non-blank value. -/
def renderHeader (title : Str) (m : KVList) (o : List Str) : Str :=
  joinNL (('#' :: ' ' :: title) :: (renderPairs m o).map lineOf)

/-- The update loop of `update_thread_metadata`.  Update values are
`Option Str`: `none` models Python `None` (for `"Title"`, `str(None)` is the
text `None`), `some s` a string value. -/
def applyUpdates : Str × KVList × List Str → List (Str × Option Str) → Str × KVList × List Str
  | tmo, [] => tmo
  | (t, m, o), (k, v) :: us =>
    if pstrip k = "Title".toList then
      applyUpdates
        ((if pstrip (v.getD ("None".toList)) = [] then t
          else pstrip (v.getD ("None".toList))), m, o) us
    else
      match v with
      | none => applyUpdates (t, alPop m (pstrip k), o) us
      | some s =>
        if pstrip s = [] then applyUpdates (t, alPop m (pstrip k), o) us
        else
          applyUpdates (t,
            alSet m (pstrip k)
              (if pstrip k = "Status".toList ∨ pstrip k = "Priority".toList
               then upperS (pstrip s) else pstrip s),
            (if pstrip k ∈ o then o else o ++ [pstrip k])) us

/-- The new file content built by `update_thread_metadata`:
rendered header, blank line, `---`, then the original body. -/
def updateContent (content stem : Str) (us : List (Str × Option Str)) : Str :=
  renderHeader
      (applyUpdates (parseHeaderLines (splitHeaderAndBody content).1 stem) us).1
      (applyUpdates (parseHeaderLines (splitHeaderAndBody content).1 stem) us).2.1
      (applyUpdates (parseHeaderLines (splitHeaderAndBody content).1 stem) us).2.2
    ++ '\n' :: '\n' :: '-' :: '-' :: '-' :: [] ++
    (if (splitHeaderAndBody content).2 = [] then ['\n']
     else '\n' :: (pstrip (splitHeaderAndBody content).2 ++ ['\n']))

def notFoundMsg : Str := "Thread file not found".toList

/-- `ThreadParser.update_thread_metadata` over the filesystem model: a
missing path fails before any write; otherwise the file is replaced in one
step by the complete new content and the freshly re-parsed document is
returned.  (Git commit/push and its status metadata are orchestration and
are not modelled.) -/
def updateThreadMetadata (fs : KVList) (path stem : Str)
    (us : List (Str × Option Str)) : KVList × Except Str ParsedDoc :=
  match alGet fs path with
  | none => (fs, Except.error notFoundMsg)
  | some content =>
    (alSet fs path (updateContent content stem us),
     Except.ok (parseThreadFileCore (updateContent content stem us) stem))

/-! ## Toolbox: `pstrip`, `splitLines`, `joinNL` -/

theorem mem_of_mem_dropWhileL {p : Char → Bool} {c : Char} :
    ∀ {l : Str}, c ∈ l.dropWhile p → c ∈ l
  | [], h => h
  | a :: l, h => by
    rw [List.dropWhile_cons] at h
    split at h
    · exact List.mem_cons_of_mem a (mem_of_mem_dropWhileL h)
    · exact h

theorem dropWhile_cons_of_neg {p : Char → Bool} {c : Char} {l : Str}
    (h : p c = false) : (c :: l).dropWhile p = c :: l := by
  simp [List.dropWhile_cons, h]

/-- All characters whitespace. -/
def allWS (w : Str) : Prop := ∀ c ∈ w, pyws c = true

theorem rstrip_decomp (t : Str) :
    t = (t.reverse.dropWhile pyws).reverse ++ (t.reverse.takeWhile pyws).reverse :=
  calc t = (t.reverse).reverse := (List.reverse_reverse t).symm
    _ = (t.reverse.takeWhile pyws ++ t.reverse.dropWhile pyws).reverse := by
        rw [List.takeWhile_append_dropWhile]
    _ = (t.reverse.dropWhile pyws).reverse ++ (t.reverse.takeWhile pyws).reverse :=
        List.reverse_append _ _

theorem pstrip_decomp (l : Str) :
    ∃ w1 w2, allWS w1 ∧ allWS w2 ∧ l = w1 ++ (pstrip l ++ w2) := by
  refine ⟨l.takeWhile pyws, ((l.dropWhile pyws).reverse.takeWhile pyws).reverse, ?_, ?_, ?_⟩
  · intro c hc
    exact List.mem_takeWhile_imp hc
  · intro c hc
    rw [List.mem_reverse] at hc
    exact List.mem_takeWhile_imp hc
  · conv_lhs => rw [← List.takeWhile_append_dropWhile (p := pyws) (l := l)]
    congr 1
    exact rstrip_decomp (l.dropWhile pyws)

theorem allWS_of_pstrip_nil {l : Str} (h : pstrip l = []) : allWS l := by
  obtain ⟨w1, w2, h1, h2, he⟩ := pstrip_decomp l
  rw [h, List.nil_append] at he
  intro c hc
  rw [he, List.mem_append] at hc
  cases hc with
  | inl hc => exact h1 c hc
  | inr hc => exact h2 c hc

theorem pstrip_ne_nil_of_mem {l : Str} {c : Char} (hc : c ∈ l) (hw : pyws c = false) :
    pstrip l ≠ [] := by
  intro h
  have := allWS_of_pstrip_nil h c hc
  rw [hw] at this
  exact Bool.false_ne_true this

theorem pstrip_eq_self {l : Str} (hh : ∀ c, l.head? = some c → pyws c = false)
    (hl : ∀ c, l.getLast? = some c → pyws c = false) : pstrip l = l := by
  have h1 : l.dropWhile pyws = l := by
    cases l with
    | nil => rfl
    | cons a l => exact dropWhile_cons_of_neg (hh a rfl)
  have h2 : l.reverse.dropWhile pyws = l.reverse := by
    cases hr : l.reverse with
    | nil => rfl
    | cons a r =>
      have ha : l.getLast? = some a := by
        rw [← List.head?_reverse, hr]; rfl
      exact dropWhile_cons_of_neg (hl a ha)
  unfold pstrip
  rw [h1, h2, List.reverse_reverse]

theorem pstrip_head_not_ws {l : Str} {c : Char} (h : (pstrip l).head? = some c) :
    pyws c = false := by
  have hpre : l.dropWhile pyws =
      pstrip l ++ ((l.dropWhile pyws).reverse.takeWhile pyws).reverse :=
    rstrip_decomp (l.dropWhile pyws)
  have hh : (l.dropWhile pyws).head? = some c := by
    rw [hpre, List.head?_append, h]
    rfl
  have hnot := List.head?_dropWhile_not pyws l
  rw [hh] at hnot
  exact hnot

theorem pstrip_last_not_ws {l : Str} {c : Char} (h : (pstrip l).getLast? = some c) :
    pyws c = false := by
  have hd : (pstrip l).getLast? = ((l.dropWhile pyws).reverse.dropWhile pyws).head? := by
    show (((l.dropWhile pyws).reverse.dropWhile pyws).reverse).getLast? = _
    rw [List.getLast?_reverse]
  rw [hd] at h
  have hnot := List.head?_dropWhile_not pyws (l.dropWhile pyws).reverse
  rw [h] at hnot
  exact hnot

theorem pstrip_idem (l : Str) : pstrip (pstrip l) = pstrip l :=
  pstrip_eq_self (fun _ h => pstrip_head_not_ws h) (fun _ h => pstrip_last_not_ws h)

theorem pstrip_head_of_self {l : Str} {c : Char} {t : Str}
    (hs : pstrip l = l) (he : l = c :: t) : pyws c = false := by
  apply pstrip_head_not_ws (l := l)
  rw [hs, he]; rfl

theorem pstrip_last_of_self {l : Str} {c : Char} (hs : pstrip l = l)
    (he : l.getLast? = some c) : pyws c = false := by
  apply pstrip_last_not_ws (l := l)
  rw [hs]; exact he

theorem getLast?_ne_none {c : Char} {u : Str} : (c :: u).getLast? ≠ none := by
  induction u generalizing c with
  | nil => simp
  | cons d u ih => rw [List.getLast?_cons_cons]; exact ih

/-- Stripping a `key: value` line with tight key and value is the identity. -/
theorem pstrip_lineOf {k v : Str} (hk : pstrip k = k) (hk0 : k ≠ [])
    (hv : pstrip v = v) (hv0 : v ≠ []) :
    pstrip (k ++ ':' :: ' ' :: v) = k ++ ':' :: ' ' :: v := by
  apply pstrip_eq_self
  · intro c hc
    cases k with
    | nil => exact absurd rfl hk0
    | cons a t =>
      rw [List.cons_append] at hc
      injection hc with hc
      subst hc
      exact pstrip_head_of_self hk rfl
  · intro c hc
    cases v with
    | nil => exact absurd rfl hv0
    | cons b u =>
      have h1 : (k ++ ':' :: ' ' :: b :: u).getLast? = (b :: u).getLast? := by
        rw [List.getLast?_append, List.getLast?_cons_cons, List.getLast?_cons_cons]
        cases hg : (b :: u).getLast? with
        | none => exact absurd hg getLast?_ne_none
        | some d => rfl
      rw [h1] at hc
      exact pstrip_last_of_self hv hc

theorem splitLines_eq_nil_iff {cs : Str} : splitLines cs = [] ↔ cs = [] := by
  constructor
  · intro h
    cases cs with
    | nil => rfl
    | cons c cs =>
      unfold splitLines at h
      split at h
      · cases h
      · split at h <;> cases h
  · intro h; subst h; rfl

theorem splitLines_cons_nl (cs : Str) : splitLines ('\n' :: cs) = [] :: splitLines cs := by
  conv_lhs => unfold splitLines
  rw [if_pos rfl]

theorem splitLines_cons {c : Char} (hc : c ≠ '\n') (cs : Str) :
    splitLines (c :: cs) =
      match splitLines cs with
      | [] => [[c]]
      | l :: ls => (c :: l) :: ls := by
  conv_lhs => unfold splitLines
  rw [if_neg hc]

theorem splitLines_append_nl {l : Str} (hl : '\n' ∉ l) (rest : Str) :
    splitLines (l ++ '\n' :: rest) = l :: splitLines rest := by
  induction l with
  | nil => exact splitLines_cons_nl rest
  | cons c t ih =>
    have hc : c ≠ '\n' := fun h => hl (h ▸ List.mem_cons_self c t)
    have ht : '\n' ∉ t := fun h => hl (List.mem_cons_of_mem c h)
    rw [List.cons_append, splitLines_cons hc, ih ht]

theorem splitLines_single {l : Str} (h0 : l ≠ []) (hl : '\n' ∉ l) :
    splitLines l = [l] := by
  induction l with
  | nil => exact absurd rfl h0
  | cons c t ih =>
    have hc : c ≠ '\n' := fun h => hl (h ▸ List.mem_cons_self c t)
    have ht : '\n' ∉ t := fun h => hl (List.mem_cons_of_mem c h)
    rw [splitLines_cons hc]
    cases t with
    | nil => rfl
    | cons d u => rw [ih (by simp) ht]

theorem splitLines_join {ls : List Str} (hls : ∀ l ∈ ls, '\n' ∉ l) (hne : ls ≠ [])
    (rest : Str) : splitLines (joinNL ls ++ '\n' :: rest) = ls ++ splitLines rest := by
  induction ls with
  | nil => exact absurd rfl hne
  | cons l ls ih =>
    cases ls with
    | nil =>
      show splitLines (l ++ '\n' :: rest) = _
      rw [splitLines_append_nl (hls l (List.mem_cons_self _ _)) rest]
      rfl
    | cons l' ls' =>
      show splitLines ((l ++ '\n' :: joinNL (l' :: ls')) ++ '\n' :: rest) = _
      rw [List.append_assoc, List.cons_append,
        splitLines_append_nl (hls l (List.mem_cons_self _ _)),
        ih (fun x hx => hls x (List.mem_cons_of_mem l hx)) (by simp)]
      rfl

theorem splitLines_joinNL {ls : List Str} (hls : ∀ l ∈ ls, '\n' ∉ l)
    (hne : ∀ l ∈ ls, l ≠ []) (h0 : ls ≠ []) : splitLines (joinNL ls) = ls := by
  induction ls with
  | nil => exact absurd rfl h0
  | cons l ls ih =>
    cases ls with
    | nil =>
      show splitLines l = [l]
      exact splitLines_single (hne l (List.mem_cons_self _ _)) (hls l (List.mem_cons_self _ _))
    | cons l' ls' =>
      show splitLines (l ++ '\n' :: joinNL (l' :: ls')) = _
      rw [splitLines_append_nl (hls l (List.mem_cons_self _ _))]
      rw [ih (fun x hx => hls x (List.mem_cons_of_mem l hx))
        (fun x hx => hne x (List.mem_cons_of_mem l hx)) (by simp)]

theorem joinNL_splitLines {cs : Str} (h : cs.getLast? ≠ some '\n') :
    joinNL (splitLines cs) = cs := by
  induction cs with
  | nil => rfl
  | cons c t ih =>
    have htl : t ≠ [] → t.getLast? ≠ some '\n' := by
      intro ht0
      cases t with
      | nil => exact absurd rfl ht0
      | cons d u => rw [List.getLast?_cons_cons] at h; exact h
    by_cases hc : c = '\n'
    · subst hc
      cases t with
      | nil => exact absurd rfl h
      | cons d u =>
        have hne : splitLines (d :: u) ≠ [] := by
          rw [Ne, splitLines_eq_nil_iff]; simp
        rw [splitLines_cons_nl]
        cases hsp : splitLines (d :: u) with
        | nil => exact absurd hsp hne
        | cons x xs =>
          show [] ++ '\n' :: joinNL (x :: xs) = '\n' :: d :: u
          rw [List.nil_append]
          have hih := ih (htl (by simp))
          rw [hsp] at hih
          rw [hih]
    · rw [splitLines_cons hc]
      cases t with
      | nil => rfl
      | cons d u =>
        have hne : splitLines (d :: u) ≠ [] := by
          rw [Ne, splitLines_eq_nil_iff]; simp
        cases hsp : splitLines (d :: u) with
        | nil => exact absurd hsp hne
        | cons x xs =>
          have hih := ih (htl (by simp))
          rw [hsp] at hih
          cases xs with
          | nil =>
            show c :: x = c :: d :: u
            rw [show joinNL [x] = x from rfl] at hih
            rw [hih]
          | cons y ys =>
            show (c :: x) ++ '\n' :: joinNL (y :: ys) = c :: d :: u
            have hj : joinNL (x :: y :: ys) = x ++ '\n' :: joinNL (y :: ys) := rfl
            rw [hj] at hih
            rw [List.cons_append, hih]

theorem splitLines_no_nl {cs : Str} : ∀ l ∈ splitLines cs, '\n' ∉ l := by
  induction cs with
  | nil => intro l hl; cases hl
  | cons c t ih =>
    intro l hl
    by_cases hc : c = '\n'
    · subst hc
      rw [splitLines_cons_nl] at hl
      rw [List.mem_cons] at hl
      cases hl with
      | inl hl => subst hl; simp
      | inr hl => exact ih l hl
    · rw [splitLines_cons hc] at hl
      cases hsp : splitLines t with
      | nil =>
        rw [hsp] at hl
        rw [List.mem_singleton] at hl
        subst hl
        intro hm
        rw [List.mem_singleton] at hm
        exact hc hm.symm
      | cons x xs =>
        rw [hsp] at hl
        rw [List.mem_cons] at hl
        cases hl with
        | inl hl =>
          subst hl
          intro hm
          rw [List.mem_cons] at hm
          cases hm with
          | inl hm => exact hc hm.symm
          | inr hm => exact ih x (hsp ▸ List.mem_cons_self x xs) hm
        | inr hl => exact ih l (hsp ▸ List.mem_cons_of_mem x hl)

/-! ## Toolbox: association lists -/

theorem alGet_alSet_self : ∀ (m : KVList) (k v : Str), alGet (alSet m k v) k = some v
  | [], k, v => by simp [alSet, alGet]
  | (k0, v0) :: r, k, v => by
    by_cases h0 : k0 = k
    · simp [alSet, alGet, h0]
    · simp only [alSet, alGet, if_neg h0]
      exact alGet_alSet_self r k v

theorem alGet_alSet_ne : ∀ (m : KVList) {k k' : Str} (v : Str), k' ≠ k →
    alGet (alSet m k v) k' = alGet m k'
  | [], k, k', v, h => by
    simp only [alSet, alGet]
    rw [if_neg (fun he : k = k' => h he.symm)]
  | (k0, v0) :: r, k, k', v, h => by
    by_cases h0 : k0 = k
    · subst h0
      have hne : k0 ≠ k' := fun he => h he.symm
      simp [alSet, alGet, hne]
    · simp only [alSet, alGet, if_neg h0]
      by_cases h1 : k0 = k'
      · rw [if_pos h1, if_pos h1]
      · rw [if_neg h1, if_neg h1, alGet_alSet_ne r v h]

theorem mem_alSet : ∀ {m : KVList} {k v : Str} {p : Str × Str},
    p ∈ alSet m k v → p ∈ m ∨ p = (k, v)
  | [], k, v, p, h => by
    simp only [alSet] at h
    rw [List.mem_singleton] at h
    exact Or.inr h
  | (k0, v0) :: r, k, v, p, h => by
    by_cases h0 : k0 = k
    · subst h0
      rw [show alSet ((k0, v0) :: r) k0 v = (k0, v) :: r from by
        unfold alSet; rw [if_pos rfl]] at h
      rw [List.mem_cons] at h
      cases h with
      | inl h => exact Or.inr h
      | inr h => exact Or.inl (List.mem_cons_of_mem _ h)
    · have hstep : alSet ((k0, v0) :: r) k v = (k0, v0) :: alSet r k v := by
        simp only [alSet]
        rw [if_neg h0]
      rw [hstep] at h
      rw [List.mem_cons] at h
      cases h with
      | inl h => exact Or.inl (h ▸ List.mem_cons_self _ _)
      | inr h =>
        cases mem_alSet h with
        | inl h => exact Or.inl (List.mem_cons_of_mem _ h)
        | inr h => exact Or.inr h

theorem keys_alSet : ∀ (m : KVList) (k v : Str),
    (alSet m k v).map Prod.fst =
      if k ∈ m.map Prod.fst then m.map Prod.fst else m.map Prod.fst ++ [k]
  | [], k, v => by simp [alSet]
  | (k0, v0) :: r, k, v => by
    by_cases h0 : k0 = k
    · subst h0
      rw [show alSet ((k0, v0) :: r) k0 v = (k0, v) :: r from by
        unfold alSet; rw [if_pos rfl]]
      rw [if_pos (by simp)]
      simp
    · have hstep : alSet ((k0, v0) :: r) k v = (k0, v0) :: alSet r k v := by
        simp only [alSet]
        rw [if_neg h0]
      rw [hstep]
      rw [List.map_cons, List.map_cons, keys_alSet r k v]
      by_cases hm : k ∈ r.map Prod.fst
      · rw [if_pos hm, if_pos (by rw [List.mem_cons]; exact Or.inr hm)]
      · have hnm : k ∉ k0 :: r.map Prod.fst := by
          rw [List.mem_cons]
          rintro (h | h)
          · exact h0 h.symm
          · exact hm h
        rw [if_neg hm, if_neg hnm]
        rfl

theorem alGet_isSome_iff : ∀ (m : KVList) (k : Str),
    (alGet m k).isSome = true ↔ k ∈ m.map Prod.fst
  | [], k => by simp [alGet]
  | (k0, v0) :: r, k => by
    by_cases h0 : k0 = k
    · subst h0; simp [alGet]
    · simp only [alGet, if_neg h0, List.map_cons, List.mem_cons]
      rw [alGet_isSome_iff r k]
      constructor
      · exact Or.inr
      · intro h
        cases h with
        | inl h => exact absurd h.symm h0
        | inr h => exact h

theorem alGet_eq_none_of_not_mem {m : KVList} {k : Str}
    (h : k ∉ m.map Prod.fst) : alGet m k = none := by
  cases hg : alGet m k with
  | none => rfl
  | some v =>
    exact absurd ((alGet_isSome_iff m k).mp (by rw [hg]; rfl)) h

theorem alGet_some_mem : ∀ {m : KVList} {k v : Str}, alGet m k = some v → (k, v) ∈ m
  | [], k, v, h => by simp [alGet] at h
  | (k0, v0) :: r, k, v, h => by
    by_cases h0 : k0 = k
    · subst h0
      simp only [alGet, if_pos rfl] at h
      cases h
      exact List.mem_cons_self _ _
    · simp only [alGet, if_neg h0] at h
      exact List.mem_cons_of_mem _ (alGet_some_mem h)

theorem nodup_keys_alSet {m : KVList} (k v : Str)
    (h : (m.map Prod.fst).Nodup) : ((alSet m k v).map Prod.fst).Nodup := by
  rw [keys_alSet]
  by_cases hm : k ∈ m.map Prod.fst
  · rw [if_pos hm]; exact h
  · rw [if_neg hm]
    rw [List.nodup_append]
    refine ⟨h, List.nodup_singleton k, ?_⟩
    intro a ha hak
    rw [List.mem_singleton] at hak
    subst hak
    exact hm ha

theorem alGet_alPop_self (m : KVList) (k : Str) : alGet (alPop m k) k = none := by
  induction m with
  | nil => rfl
  | cons p r ih =>
    obtain ⟨k0, v0⟩ := p
    by_cases h0 : k0 = k
    · subst h0
      simp only [alPop, List.filter_cons, decide_eq_true_eq]
      rw [if_neg (by simp)]
      exact ih
    · simp only [alPop, List.filter_cons, decide_eq_true_eq]
      rw [if_pos (by simpa using h0)]
      simp only [alGet, if_neg h0]
      exact ih

theorem alGet_alPop_ne (m : KVList) {k k' : Str} (h : k' ≠ k) :
    alGet (alPop m k) k' = alGet m k' := by
  induction m with
  | nil => rfl
  | cons p r ih =>
    obtain ⟨k0, v0⟩ := p
    by_cases h0 : k0 = k
    · subst h0
      simp only [alPop, List.filter_cons, decide_eq_true_eq]
      rw [if_neg (by simp)]
      simp only [alGet, if_neg (fun he : k0 = k' => h he.symm)]
      exact ih
    · simp only [alPop, List.filter_cons, decide_eq_true_eq]
      rw [if_pos (by simpa using h0)]
      by_cases h1 : k0 = k'
      · simp only [alGet, if_pos h1]
      · simp only [alGet, if_neg h1]
        exact ih

theorem mem_alPop {m : KVList} {k : Str} {p : Str × Str} (h : p ∈ alPop m k) : p ∈ m :=
  List.mem_of_mem_filter h

/-! ## Field grammar lemmas -/

theorem mem_pstrip {l : Str} {c : Char} (h : c ∈ pstrip l) : c ∈ l := by
  obtain ⟨w1, w2, _, _, he⟩ := pstrip_decomp l
  rw [he, List.mem_append, List.mem_append]
  exact Or.inr (Or.inl h)

/-- A parse-produced key: nonempty, tight, wordish characters only. -/
def goodKey (k : Str) : Prop := k ≠ [] ∧ pstrip k = k ∧ ∀ c ∈ k, wordish c = true

/-- A parse-produced value: nonempty, tight, single-line. -/
def goodVal (v : Str) : Prop := v ≠ [] ∧ pstrip v = v ∧ '\n' ∉ v

def goodMap (m : KVList) : Prop := ∀ p ∈ m, goodKey p.1 ∧ goodVal p.2

theorem matchFieldStrict_good {s k v : Str} (hs : pstrip s = s)
    (h : matchFieldStrict s = some (k, v)) : goodKey k ∧ goodVal v := by
  unfold matchFieldStrict at h
  by_cases hnl : ('\n' : Char) ∈ s
  · rw [if_pos hnl] at h; cases h
  rw [if_neg hnl] at h
  by_cases hk0 : s.takeWhile wordish = []
  · rw [if_pos hk0] at h; cases h
  rw [if_neg hk0] at h
  split at h
  · rename_i r hdw
    by_cases hv0 : r.dropWhile pyws = []
    · rw [if_pos hv0] at h
      cases h
    rw [if_neg hv0] at h
    injection h with h
    injection h with h1 h2
    subst h1
    subst h2
    constructor
    · refine ⟨?_, pstrip_idem _, ?_⟩
      · cases hkw : s.takeWhile wordish with
        | nil => exact absurd hkw hk0
        | cons a t =>
          have hh : ∃ u, s = a :: u := by
            cases s with
            | nil => cases hkw
            | cons b u =>
              rw [List.takeWhile_cons] at hkw
              split at hkw
              · injection hkw with hb _
                exact ⟨u, by rw [hb]⟩
              · cases hkw
          obtain ⟨u, hu⟩ := hh
          have ha : pyws a = false := pstrip_head_of_self hs hu
          exact pstrip_ne_nil_of_mem (List.mem_cons_self a t) ha
      · intro c hc
        exact List.mem_takeWhile_imp (mem_pstrip hc)
    · refine ⟨?_, pstrip_idem _, ?_⟩
      · cases hrd : r.dropWhile pyws with
        | nil => exact absurd hrd hv0
        | cons b u =>
          have hb : pyws b = false := by
            have hq := List.head?_dropWhile_not pyws r
            rw [hrd] at hq
            exact hq
          exact pstrip_ne_nil_of_mem (List.mem_cons_self b u) hb
      · intro hcm
        apply hnl
        have h1 : ('\n' : Char) ∈ r.dropWhile pyws := mem_pstrip hcm
        have h2 : ('\n' : Char) ∈ (':' :: r) :=
          List.mem_cons_of_mem _ (mem_of_mem_dropWhileL h1)
        rw [← hdw] at h2
        exact mem_of_mem_dropWhileL h2
  · cases h

theorem wordish_no_nl {k : Str} (h : ∀ c ∈ k, wordish c = true) : '\n' ∉ k := by
  intro hm
  have := h _ hm
  rw [show wordish '\n' = false from by decide] at this
  exact Bool.false_ne_true this

theorem matchFieldStrict_lineOf {k v : Str} (hk : goodKey k) (hv : goodVal v) :
    matchFieldStrict (k ++ ':' :: ' ' :: v) = some (k, v) := by
  obtain ⟨hk0, hks, hkw⟩ := hk
  obtain ⟨hv0, hvs, hvn⟩ := hv
  have hnl : ('\n' : Char) ∉ k ++ ':' :: ' ' :: v := by
    rw [List.mem_append]
    rintro (h | h)
    · exact wordish_no_nl hkw h
    · rw [List.mem_cons] at h
      cases h with
      | inl h => cases h
      | inr h =>
        rw [List.mem_cons] at h
        cases h with
        | inl h => cases h
        | inr h => exact hvn h
  have htw : (k ++ ':' :: ' ' :: v).takeWhile wordish = k := by
    rw [List.takeWhile_append_of_pos hkw, List.takeWhile_cons,
      if_neg (by simp [show wordish ':' = false from by decide])]
    rw [List.append_nil]
  have hdw : (k ++ ':' :: ' ' :: v).dropWhile wordish = ':' :: ' ' :: v := by
    rw [List.dropWhile_append_of_pos hkw, List.dropWhile_cons,
      if_neg (by simp [show wordish ':' = false from by decide])]
  have hv' : (' ' :: v).dropWhile pyws = v := by
    rw [List.dropWhile_cons, if_pos (by decide)]
    cases hvc : v with
    | nil => exact absurd hvc hv0
    | cons b u => exact dropWhile_cons_of_neg (pstrip_head_of_self hvs hvc)
  unfold matchFieldStrict
  rw [if_neg hnl]
  rw [htw, hdw]
  rw [if_neg hk0]
  show (if (' ' :: v).dropWhile pyws = [] then none
      else some (pstrip k, pstrip ((' ' :: v).dropWhile pyws))) = some (k, v)
  rw [hv', if_neg hv0, hks, hvs]

theorem lineOf_ne_nil {p : Str × Str} (hk : goodKey p.1) : lineOf p ≠ [] := by
  unfold lineOf
  cases hp : p.1 with
  | nil => exact absurd hp hk.1
  | cons a t => simp

theorem pstrip_lineOf_good {p : Str × Str} (hk : goodKey p.1) (hv : goodVal p.2) :
    pstrip (lineOf p) = lineOf p :=
  pstrip_lineOf hk.2.1 hk.1 hv.2.1 hv.1

theorem no_nl_lineOf {p : Str × Str} (hk : goodKey p.1) (hv : goodVal p.2) :
    '\n' ∉ lineOf p := by
  unfold lineOf
  rw [List.mem_append]
  rintro (h | h)
  · exact wordish_no_nl hk.2.2 h
  · rw [List.mem_cons] at h
    cases h with
    | inl h => cases h
    | inr h =>
      rw [List.mem_cons] at h
      cases h with
      | inl h => cases h
      | inr h => exact hv.2.2 h

/-! ## Header fold and render round trip -/

theorem headerFold_lines : ∀ (P : KVList), (∀ p ∈ P, goodKey p.1 ∧ goodVal p.2) →
    ∀ (m : KVList) (o : List Str),
      headerFold m o (P.map lineOf) =
        (P.foldl (fun m p => alSet m p.1 p.2) m, o ++ P.map Prod.fst)
  | [], _, m, o => by simp [headerFold]
  | p :: P, hP, m, o => by
    have hk := (hP p (List.mem_cons_self _ _)).1
    have hv := (hP p (List.mem_cons_self _ _)).2
    rw [List.map_cons]
    show headerFold m o (lineOf p :: P.map lineOf) = _
    unfold headerFold
    rw [pstrip_lineOf_good hk hv]
    rw [if_neg (lineOf_ne_nil hk)]
    have hm : matchFieldStrict (lineOf p) = some (p.1, p.2) :=
      matchFieldStrict_lineOf hk hv
    rw [hm]
    show headerFold (alSet m p.1 p.2) (o ++ [p.1]) (P.map lineOf) =
      (List.foldl (fun m p => alSet m p.1 p.2) m (p :: P), o ++ List.map Prod.fst (p :: P))
    rw [headerFold_lines P (fun q hq => hP q (List.mem_cons_of_mem p hq))]
    rw [List.foldl_cons, List.map_cons, List.append_assoc]
    rfl

theorem alSet_append_of_not_mem : ∀ {m : KVList} {k : Str} (v : Str),
    k ∉ m.map Prod.fst → alSet m k v = m ++ [(k, v)]
  | [], k, v, _ => rfl
  | (k0, v0) :: r, k, v, h => by
    have h0 : k0 ≠ k := by
      intro he
      exact h (by simp [he])
    simp only [alSet, if_neg h0, List.cons_append]
    rw [alSet_append_of_not_mem v (fun hm => h (by simp [hm]))]

theorem foldl_alSet_nodup : ∀ (P m : KVList),
    (∀ p ∈ P, p.1 ∉ m.map Prod.fst) → (P.map Prod.fst).Nodup →
    P.foldl (fun m p => alSet m p.1 p.2) m = m ++ P
  | [], m, _, _ => by simp
  | p :: P, m, hdisj, hnd => by
    rw [List.foldl_cons]
    rw [alSet_append_of_not_mem p.2 (hdisj p (List.mem_cons_self _ _))]
    rw [List.map_cons, List.nodup_cons] at hnd
    rw [foldl_alSet_nodup P (m ++ [p]) ?_ hnd.2]
    · rw [List.append_assoc]; rfl
    · intro q hq
      rw [List.map_append, List.mem_append]
      rintro (h | h)
      · exact hdisj q (List.mem_cons_of_mem p hq) h
      · rw [List.map_singleton, List.mem_singleton] at h
        exact hnd.1 (h ▸ List.mem_map_of_mem Prod.fst hq)

/-! ## `addUnseen` / `normOrder` -/

theorem addUnseen_nil (acc : List Str) : addUnseen acc [] = acc := rfl

theorem addUnseen_cons (acc : List Str) (k : Str) (ks : List Str) :
    addUnseen acc (k :: ks) =
      if k ∈ acc then addUnseen acc ks else addUnseen (acc ++ [k]) ks := rfl

theorem addUnseen_append : ∀ (xs ys acc : List Str),
    addUnseen acc (xs ++ ys) = addUnseen (addUnseen acc xs) ys
  | [], ys, acc => rfl
  | x :: xs, ys, acc => by
    rw [List.cons_append, addUnseen_cons, addUnseen_cons]
    by_cases hx : x ∈ acc
    · rw [if_pos hx, if_pos hx, addUnseen_append xs ys acc]
    · rw [if_neg hx, if_neg hx, addUnseen_append xs ys (acc ++ [x])]

theorem mem_addUnseen {x : Str} : ∀ (ks acc : List Str),
    x ∈ addUnseen acc ks ↔ x ∈ acc ∨ x ∈ ks
  | [], acc => by simp [addUnseen_nil]
  | k :: ks, acc => by
    rw [addUnseen_cons]
    by_cases hk : k ∈ acc
    · rw [if_pos hk, mem_addUnseen ks acc]
      constructor
      · rintro (h | h)
        · exact Or.inl h
        · exact Or.inr (List.mem_cons_of_mem _ h)
      · rintro (h | h)
        · exact Or.inl h
        · rw [List.mem_cons] at h
          cases h with
          | inl h => exact Or.inl (h ▸ hk)
          | inr h => exact Or.inr h
    · rw [if_neg hk, mem_addUnseen ks (acc ++ [k])]
      rw [List.mem_append, List.mem_singleton, List.mem_cons]
      tauto

theorem addUnseen_nodup : ∀ (ks acc : List Str), acc.Nodup → (addUnseen acc ks).Nodup
  | [], _, h => h
  | k :: ks, acc, h => by
    rw [addUnseen_cons]
    by_cases hk : k ∈ acc
    · rw [if_pos hk]
      exact addUnseen_nodup ks acc h
    · rw [if_neg hk]
      refine addUnseen_nodup ks (acc ++ [k]) ?_
      rw [List.nodup_append]
      refine ⟨h, List.nodup_singleton k, ?_⟩
      intro a ha hak
      rw [List.mem_singleton] at hak
      subst hak
      exact hk ha

theorem addUnseen_of_sub : ∀ (ks acc : List Str), (∀ k ∈ ks, k ∈ acc) →
    addUnseen acc ks = acc
  | [], _, _ => rfl
  | k :: ks, acc, h => by
    rw [addUnseen_cons]
    rw [if_pos (h k (List.mem_cons_self _ _))]
    exact addUnseen_of_sub ks acc (fun x hx => h x (List.mem_cons_of_mem _ hx))

theorem dedupKeys_snoc (o : List Str) (k : Str) :
    dedupKeys (o ++ [k]) =
      if k ∈ dedupKeys o then dedupKeys o else dedupKeys o ++ [k] := by
  unfold dedupKeys
  rw [addUnseen_append, addUnseen_cons]
  split
  · rw [addUnseen_nil]
  · rw [addUnseen_nil]

theorem normOrder_nodup (m : KVList) (o : List Str) : (normOrder m o).Nodup :=
  addUnseen_nodup _ _ (addUnseen_nodup _ _ (addUnseen_nodup _ _ List.nodup_nil))

theorem mem_normOrder_of_key {m : KVList} {o : List Str} {k : Str}
    (h : k ∈ m.map Prod.fst) : k ∈ normOrder m o := by
  unfold normOrder
  rw [mem_addUnseen]
  exact Or.inr h

theorem normOrder_eq_dedup {m : KVList} {o : List Str}
    (heq : m.map Prod.fst = dedupKeys o) : normOrder m o = dedupKeys o := by
  show addUnseen (addUnseen (addUnseen [] o)
      (preferredKeys.filter (fun k => (alGet m k).isSome))) (m.map Prod.fst) = dedupKeys o
  have h1 : addUnseen [] o = dedupKeys o := rfl
  rw [h1]
  have h2 : addUnseen (dedupKeys o) (preferredKeys.filter (fun k => (alGet m k).isSome))
      = dedupKeys o := by
    apply addUnseen_of_sub
    intro k hk
    rw [List.mem_filter] at hk
    have := (alGet_isSome_iff m k).mp hk.2
    rw [heq] at this
    exact this
  rw [h2]
  apply addUnseen_of_sub
  intro k hk
  rw [← heq]
  exact hk

/-! ## The parse invariant of `headerFold` -/

theorem headerFold_cons (m : KVList) (o : List Str) (l : Str) (ls : List Str) :
    headerFold m o (l :: ls) =
      if pstrip l = [] then headerFold m o ls
      else
        match matchFieldStrict (pstrip l) with
        | none => headerFold m o ls
        | some (k, v) => headerFold (alSet m k v) (o ++ [k]) ls := by
  conv_lhs => unfold headerFold

theorem headerFold_inv : ∀ (ls : List Str) (m : KVList) (o : List Str),
    goodMap m → (m.map Prod.fst).Nodup → m.map Prod.fst = dedupKeys o →
    goodMap (headerFold m o ls).1 ∧ ((headerFold m o ls).1.map Prod.fst).Nodup ∧
      (headerFold m o ls).1.map Prod.fst = dedupKeys (headerFold m o ls).2
  | [], _, _, hg, hnd, heq => ⟨hg, hnd, heq⟩
  | l :: ls, m, o, hg, hnd, heq => by
    rw [headerFold_cons]
    by_cases hb : pstrip l = []
    · rw [if_pos hb]
      exact headerFold_inv ls m o hg hnd heq
    · rw [if_neg hb]
      cases hmf : matchFieldStrict (pstrip l) with
      | none => exact headerFold_inv ls m o hg hnd heq
      | some kv =>
        obtain ⟨k, v⟩ := kv
        have hgood := matchFieldStrict_good (pstrip_idem l) hmf
        exact headerFold_inv ls (alSet m k v) (o ++ [k])
          (fun p hp => (mem_alSet hp).elim (hg p) (fun he => he ▸ hgood))
          (nodup_keys_alSet k v hnd)
          (by rw [keys_alSet, dedupKeys_snoc, heq])

/-! ## Render / reparse -/

theorem alGet_filterPairs (m : KVList) : ∀ (ks : List Str), ks.Nodup → ∀ k,
    alGet (ks.filterMap (fun x => (emitVal m x).map (fun v => (x, v)))) k
      = if k ∈ ks then emitVal m k else none
  | [], _, k => by simp [alGet]
  | k0 :: ks, hnd, k => by
    rw [List.nodup_cons] at hnd
    cases he : emitVal m k0 with
    | none =>
      rw [List.filterMap_cons_none (by rw [he]; rfl)]
      rw [alGet_filterPairs m ks hnd.2 k]
      by_cases hk : k = k0
      · subst hk
        rw [if_neg hnd.1, if_pos (List.mem_cons_self _ _), he]
      · by_cases hm : k ∈ ks
        · rw [if_pos hm, if_pos (List.mem_cons_of_mem _ hm)]
        · rw [if_neg hm, if_neg (by rw [List.mem_cons]; rintro (h | h); exact hk h; exact hm h)]
    | some v0 =>
      rw [List.filterMap_cons_some (by rw [he]; rfl)]
      by_cases hk : k0 = k
      · subst hk
        show (if k0 = k0 then some v0 else _) = _
        rw [if_pos rfl, if_pos (List.mem_cons_self _ _), he]
      · show (if k0 = k then some v0 else alGet _ k) = _
        rw [if_neg hk, alGet_filterPairs m ks hnd.2 k]
        by_cases hm : k ∈ ks
        · rw [if_pos hm, if_pos (List.mem_cons_of_mem _ hm)]
        · rw [if_neg hm,
            if_neg (by rw [List.mem_cons]; rintro (h | h); exact hk h.symm; exact hm h)]

theorem alGet_renderPairs (m : KVList) (o : List Str) (k : Str) :
    alGet (renderPairs m o) k = emitVal m k := by
  unfold renderPairs
  rw [alGet_filterPairs m (normOrder m o) (normOrder_nodup m o) k]
  by_cases hk : k ∈ normOrder m o
  · rw [if_pos hk]
  · rw [if_neg hk]
    cases hg : alGet m k with
    | none => unfold emitVal; rw [hg]; rfl
    | some v =>
      exact absurd (mem_normOrder_of_key ((alGet_isSome_iff m k).mp (by rw [hg]; rfl))) hk

theorem mem_renderPairs {m : KVList} {o : List Str} {p : Str × Str}
    (h : p ∈ renderPairs m o) : alGet m p.1 = some p.2 ∧ pstrip p.2 ≠ [] := by
  unfold renderPairs at h
  rw [List.mem_filterMap] at h
  obtain ⟨k, _, hk⟩ := h
  rw [Option.map_eq_some'] at hk
  obtain ⟨v, hv, hp⟩ := hk
  subst hp
  unfold emitVal at hv
  cases hg : alGet m k with
  | none => rw [hg, Option.none_bind] at hv; cases hv
  | some v0 =>
    rw [hg, Option.some_bind] at hv
    by_cases hb : pstrip v0 = []
    · rw [if_pos hb] at hv; cases hv
    · rw [if_neg hb] at hv
      injection hv with hv
      subst hv
      exact ⟨rfl, hb⟩

theorem goodMap_renderPairs {m : KVList} {o : List Str} (hg : goodMap m) :
    goodMap (renderPairs m o) := by
  intro p hp
  have := mem_renderPairs hp
  have hm : (p.1, p.2) ∈ m := alGet_some_mem this.1
  exact hg (p.1, p.2) hm

theorem mem_fst_filterPairs {m : KVList} {k : Str} : ∀ {ks : List Str},
    k ∈ (ks.filterMap (fun x => (emitVal m x).map (fun v => (x, v)))).map Prod.fst → k ∈ ks
  | [], h => by simp at h
  | k0 :: ks, h => by
    cases he : emitVal m k0 with
    | none =>
      rw [List.filterMap_cons_none (by rw [he]; rfl)] at h
      exact List.mem_cons_of_mem _ (mem_fst_filterPairs h)
    | some v0 =>
      rw [List.filterMap_cons_some (by rw [he]; rfl)] at h
      rw [List.map_cons, List.mem_cons] at h
      cases h with
      | inl h => exact h ▸ List.mem_cons_self _ _
      | inr h => exact List.mem_cons_of_mem _ (mem_fst_filterPairs h)

theorem nodup_fst_filterPairs (m : KVList) : ∀ (ks : List Str), ks.Nodup →
    ((ks.filterMap (fun x => (emitVal m x).map (fun v => (x, v)))).map Prod.fst).Nodup
  | [], _ => List.nodup_nil
  | k0 :: ks, hnd => by
    rw [List.nodup_cons] at hnd
    cases he : emitVal m k0 with
    | none =>
      rw [List.filterMap_cons_none (by rw [he]; rfl)]
      exact nodup_fst_filterPairs m ks hnd.2
    | some v0 =>
      rw [List.filterMap_cons_some (by rw [he]; rfl)]
      rw [List.map_cons, List.nodup_cons]
      exact ⟨fun hm => hnd.1 (mem_fst_filterPairs hm), nodup_fst_filterPairs m ks hnd.2⟩

theorem nodup_fst_renderPairs (m : KVList) (o : List Str) :
    ((renderPairs m o).map Prod.fst).Nodup :=
  nodup_fst_filterPairs m (normOrder m o) (normOrder_nodup m o)

/-- With a well-formed metadata map (all values non-blank) whose key list is
exactly the deduplicated field order, the emitted pairs are the map itself. -/
theorem renderPairs_eq_self {m : KVList} {o : List Str} (hg : goodMap m)
    (hnd : (m.map Prod.fst).Nodup) (heq : m.map Prod.fst = dedupKeys o) :
    renderPairs m o = m := by
  unfold renderPairs
  rw [normOrder_eq_dedup heq, ← heq]
  -- reconstruct the association list from its own keys
  clear heq
  induction m with
  | nil => rfl
  | cons p r ih =>
    rw [List.map_cons]
    have hget : alGet (p :: r) p.1 = some p.2 := by
      obtain ⟨k0, v0⟩ := p
      simp [alGet]
    have hgood := hg p (List.mem_cons_self _ _)
    have hemit : emitVal (p :: r) p.1 = some p.2 := by
      unfold emitVal
      rw [hget, Option.some_bind, if_neg (by rw [hgood.2.2.1]; exact hgood.2.1)]
    rw [List.filterMap_cons_some (by rw [hemit]; rfl)]
    rw [List.map_cons, List.nodup_cons] at hnd
    have hcongr : ∀ x ∈ r.map Prod.fst,
        (emitVal (p :: r) x).map (fun v => (x, v)) = (emitVal r x).map (fun v => (x, v)) := by
      intro x hx
      have hne : p.1 ≠ x := fun he => hnd.1 (he ▸ hx)
      unfold emitVal
      obtain ⟨k0, v0⟩ := p
      rw [show alGet ((k0, v0) :: r) x = alGet r x from by
        simp only [alGet]
        rw [if_neg hne]]
    rw [List.filterMap_congr hcongr]
    rw [ih (fun q hq => hg q (List.mem_cons_of_mem _ hq)) hnd.2]

theorem pstrip_cons_head_eq {c : Char} (hc : pyws c = false) (l : Str) :
    ∃ w, pstrip (c :: l) = c :: w := by
  obtain ⟨w1, w2, hw1, hw2, he⟩ := pstrip_decomp (c :: l)
  cases hw1c : w1 with
  | cons a t =>
    rw [hw1c] at hw1 he
    rw [List.cons_append] at he
    injection he with h1 _
    have hpy := hw1 a (List.mem_cons_self a t)
    rw [← h1] at hpy
    rw [hpy] at hc
    exact absurd hc (by decide)
  | nil =>
    rw [hw1c, List.nil_append] at he
    cases hp : pstrip (c :: l) with
    | nil =>
      rw [hp, List.nil_append] at he
      have hpy := hw2 c (he ▸ List.mem_cons_self c l)
      rw [hpy] at hc
      exact absurd hc (by decide)
    | cons x xs =>
      rw [hp, List.cons_append] at he
      injection he with h1 _
      exact ⟨xs, by rw [h1]⟩

theorem parseHeaderLines_cons (l0 : Str) (rest : List Str) (d : Str) :
    parseHeaderLines (l0 :: rest) d =
      if startsWithL ['#'] (pstrip l0) = true then
        (if pstrip ((pstrip l0).dropWhile (fun c => c = '#')) = [] then d
         else pstrip ((pstrip l0).dropWhile (fun c => c = '#')),
         headerFold [] [] rest)
      else (d, headerFold [] [] (l0 :: rest)) := by
  conv_lhs => unfold parseHeaderLines

theorem reparse_render_fields (t : Str) (m : KVList) (o : List Str)
    (hg : goodMap m) (ht : '\n' ∉ t) (d : Str) :
    (parseHeaderLines (splitLines (renderHeader t m o)) d).2
      = (renderPairs m o, (renderPairs m o).map Prod.fst) := by
  have hP : goodMap (renderPairs m o) := goodMap_renderPairs hg
  have hlines : splitLines (renderHeader t m o)
      = ('#' :: ' ' :: t) :: (renderPairs m o).map lineOf := by
    unfold renderHeader
    apply splitLines_joinNL
    · intro l hl
      rw [List.mem_cons] at hl
      cases hl with
      | inl hl =>
        subst hl
        intro hm
        rw [List.mem_cons] at hm
        cases hm with
        | inl hm => cases hm
        | inr hm =>
          rw [List.mem_cons] at hm
          cases hm with
          | inl hm => cases hm
          | inr hm => exact ht hm
      | inr hl =>
        rw [List.mem_map] at hl
        obtain ⟨p, hp, hpl⟩ := hl
        exact hpl ▸ no_nl_lineOf (hP p hp).1 (hP p hp).2
    · intro l hl
      rw [List.mem_cons] at hl
      cases hl with
      | inl hl => subst hl; simp
      | inr hl =>
        rw [List.mem_map] at hl
        obtain ⟨p, hp, hpl⟩ := hl
        exact hpl ▸ lineOf_ne_nil (hP p hp).1
    · simp
  rw [hlines]
  have hsw : startsWithL ['#'] (pstrip ('#' :: ' ' :: t)) = true := by
    obtain ⟨w, hw⟩ := pstrip_cons_head_eq (show pyws '#' = false by decide) (' ' :: t)
    rw [hw]
    simp [startsWithL]
  rw [parseHeaderLines_cons, if_pos hsw]
  show headerFold [] [] ((renderPairs m o).map lineOf) = _
  rw [headerFold_lines _ hP]
  rw [foldl_alSet_nodup _ [] (fun p _ => List.not_mem_nil _) (nodup_fst_renderPairs m o)]
  rfl

theorem parseHeaderLines_inv (ls : List Str) (d : Str) :
    goodMap (parseHeaderLines ls d).2.1 ∧
    ((parseHeaderLines ls d).2.1.map Prod.fst).Nodup ∧
    (parseHeaderLines ls d).2.1.map Prod.fst = dedupKeys (parseHeaderLines ls d).2.2 := by
  have h0 : goodMap ([] : KVList) := fun p hp => absurd hp (List.not_mem_nil p)
  cases ls with
  | nil => exact ⟨h0, List.nodup_nil, rfl⟩
  | cons l0 rest =>
    rw [parseHeaderLines_cons]
    by_cases hs : startsWithL ['#'] (pstrip l0) = true
    · rw [if_pos hs]
      exact headerFold_inv rest [] [] h0 List.nodup_nil rfl
    · rw [if_neg hs]
      exact headerFold_inv (l0 :: rest) [] [] h0 List.nodup_nil rfl

theorem parseTitle_no_nl (ls : List Str) (d : Str) (hls : ∀ l ∈ ls, '\n' ∉ l)
    (hd : '\n' ∉ d) : '\n' ∉ (parseHeaderLines ls d).1 := by
  cases ls with
  | nil => exact hd
  | cons l0 rest =>
    rw [parseHeaderLines_cons]
    by_cases hs : startsWithL ['#'] (pstrip l0) = true
    · rw [if_pos hs]
      by_cases hb : pstrip ((pstrip l0).dropWhile (fun c => c = '#')) = []
      · rw [if_pos hb]
        exact hd
      · rw [if_neg hb]
        show '\n' ∉ pstrip ((pstrip l0).dropWhile (fun c => c = '#'))
        intro hm
        exact hls l0 (List.mem_cons_self _ _)
          (mem_pstrip (mem_of_mem_dropWhileL (mem_pstrip hm)))
    · rw [if_neg hs]
      exact hd

/-- Values parsed by the header codec are non-blank and tight. -/
theorem parseHeaderLines_vals (ls : List Str) (d : Str) :
    ∀ p ∈ (parseHeaderLines ls d).2.1, pstrip p.2 ≠ [] := by
  intro p hp
  have hgood := (parseHeaderLines_inv ls d).1 p hp
  rw [hgood.2.2.1]
  exact hgood.2.1

/-- C5: reading header lines and rendering the result reproduces every parsed
field with its (non-blank) value — the reparsed metadata map is identical —
and the rendered field order is the deduplicated (first-occurrence) original
key order, no matter how many blank or unparseable lines were interleaved.
Hypotheses: header lines and the default title are single lines (they come
from `splitlines` and a file-system name). -/
theorem C5_header_codec_roundtrip (ls : List Str) (d : Str)
    (hls : ∀ l ∈ ls, '\n' ∉ l) (hd : '\n' ∉ d) :
    (parseHeaderLines (splitLines (renderHeader (parseHeaderLines ls d).1
        (parseHeaderLines ls d).2.1 (parseHeaderLines ls d).2.2)) d).2.1
      = (parseHeaderLines ls d).2.1 ∧
    (parseHeaderLines (splitLines (renderHeader (parseHeaderLines ls d).1
        (parseHeaderLines ls d).2.1 (parseHeaderLines ls d).2.2)) d).2.2
      = dedupKeys (parseHeaderLines ls d).2.2 ∧
    ∀ p ∈ (parseHeaderLines ls d).2.1, pstrip p.2 = p.2 ∧ p.2 ≠ [] := by
  obtain ⟨hg, hnd, heq⟩ := parseHeaderLines_inv ls d
  have ht := parseTitle_no_nl ls d hls hd
  have hrf := reparse_render_fields (parseHeaderLines ls d).1 (parseHeaderLines ls d).2.1
    (parseHeaderLines ls d).2.2 hg ht d
  have hself := renderPairs_eq_self hg hnd heq
  refine ⟨?_, ?_, ?_⟩
  · show ((parseHeaderLines (splitLines _) d).2).1 = _
    rw [hrf, hself]
  · show ((parseHeaderLines (splitLines _) d).2).2 = _
    rw [hrf]
    show (renderPairs _ _).map Prod.fst = _
    rw [hself, heq]
  · intro p hp
    have hgood := hg p hp
    exact ⟨hgood.2.2.1, hgood.2.1⟩

def c5lines : List Str :=
  ["# T".toList, "Status: OPEN".toList, "".toList, "not a field!".toList,
   "Ball: A (x)".toList, "Status: NEW".toList]

/-- Witness for C5 at a concrete header with a duplicate key, a blank line
and an unparseable line. -/
theorem C5_header_codec_roundtrip_witness :
    ((∀ l ∈ c5lines, '\n' ∉ l) ∧ '\n' ∉ "thread".toList) ∧
    ((parseHeaderLines (splitLines (renderHeader (parseHeaderLines c5lines "thread".toList).1
        (parseHeaderLines c5lines "thread".toList).2.1
        (parseHeaderLines c5lines "thread".toList).2.2)) "thread".toList).2.1
      = (parseHeaderLines c5lines "thread".toList).2.1 ∧
    (parseHeaderLines (splitLines (renderHeader (parseHeaderLines c5lines "thread".toList).1
        (parseHeaderLines c5lines "thread".toList).2.1
        (parseHeaderLines c5lines "thread".toList).2.2)) "thread".toList).2.2
      = dedupKeys (parseHeaderLines c5lines "thread".toList).2.2 ∧
    ∀ p ∈ (parseHeaderLines c5lines "thread".toList).2.1, pstrip p.2 = p.2 ∧ p.2 ≠ []) :=
  ⟨⟨by decide, by decide⟩,
    C5_header_codec_roundtrip c5lines "thread".toList (by decide) (by decide)⟩

/-! ## Entry delimiter lemmas -/

theorem startsWithL_ex : ∀ {p s : Str}, startsWithL p s = true → ∃ r, s = p ++ r
  | [], s, _ => ⟨s, rfl⟩
  | p :: ps, [], h => by cases h
  | p :: ps, c :: cs, h => by
    change (decide (p = c) && startsWithL ps cs) = true at h
    rw [Bool.and_eq_true] at h
    obtain ⟨r, hr⟩ := startsWithL_ex h.2
    exact ⟨r, by rw [of_decide_eq_true h.1, hr]; rfl⟩

theorem startsWithL_self_append : ∀ (p r : Str), startsWithL p (p ++ r) = true
  | [], _ => rfl
  | c :: p, r => by
    show (decide (c = c) && startsWithL p (p ++ r)) = true
    rw [decide_eq_true rfl, startsWithL_self_append p r]
    rfl

theorem tryDelim_entry {cs r : Str} (h : tryDelim cs = some r) :
    startsWithL ("Entry:".toList) r = true := by
  unfold tryDelim at h
  split at h
  · dsimp only at h
    split at h
    · rename_i hcond
      injection h with h
      subst h
      exact hcond.2.2
    · cases h
  · cases h

theorem findDelim_cons_nl (cs : Str) :
    findDelim ('\n' :: cs) =
      match tryDelim cs with
      | some r => some ([], r)
      | none => (findDelim cs).map (fun p => ('\n' :: p.1, p.2)) := by
  conv_lhs => unfold findDelim
  rw [if_pos rfl]

theorem findDelim_cons_ne {c : Char} (hc : c ≠ '\n') (cs : Str) :
    findDelim (c :: cs) = (findDelim cs).map (fun p => (c :: p.1, p.2)) := by
  conv_lhs => unfold findDelim
  rw [if_neg hc]

theorem findDelim_after : ∀ {cs b a : Str}, findDelim cs = some (b, a) →
    startsWithL ("Entry:".toList) a = true := by
  intro cs
  induction cs with
  | nil => intro b a h; cases h
  | cons c cs ih =>
    intro b a h
    by_cases hc : c = '\n'
    · subst hc
      rw [findDelim_cons_nl] at h
      cases htd : tryDelim cs with
      | some r =>
        rw [htd] at h
        injection h with h
        injection h with _ h2
        subst h2
        exact tryDelim_entry htd
      | none =>
        rw [htd] at h
        rw [Option.map_eq_some'] at h
        obtain ⟨⟨b', a'⟩, hfd, hp⟩ := h
        injection hp with _ h2
        subst h2
        exact ih hfd
    · rw [findDelim_cons_ne hc] at h
      rw [Option.map_eq_some'] at h
      obtain ⟨⟨b', a'⟩, hfd, hp⟩ := h
      injection hp with _ h2
      subst h2
      exact ih hfd

theorem findDelim_under : ∀ (pre : Str), '\n' ∉ pre → ∀ (cs : Str),
    findDelim (pre ++ cs) = (findDelim cs).map (fun p => (pre ++ p.1, p.2))
  | [], _, cs => by
    rw [List.nil_append]
    cases hfd : findDelim cs with
    | none => rfl
    | some ba => obtain ⟨b, a⟩ := ba; rfl
  | c :: pre, hnl, cs => by
    have hc : c ≠ '\n' := fun h => hnl (h ▸ List.mem_cons_self c pre)
    have hp : '\n' ∉ pre := fun h => hnl (List.mem_cons_of_mem c h)
    rw [List.cons_append, findDelim_cons_ne hc, findDelim_under pre hp cs]
    cases hfd : findDelim cs with
    | none => rfl
    | some ba => obtain ⟨b, a⟩ := ba; rfl

/-- Every segment of a body that itself starts with `Entry:` starts with
`Entry:`. -/
theorem splitSegs_entry : ∀ (n : Nat) (cs : Str), cs.length ≤ n →
    startsWithL ("Entry:".toList) cs = true →
    ∀ s ∈ splitSegs cs, startsWithL ("Entry:".toList) s = true
  | n, cs, hlen, hcs, s, hs => by
    cases hfd : findDelim cs with
    | none =>
      rw [splitSegs_none hfd] at hs
      rw [List.mem_singleton] at hs
      subst hs
      exact hcs
    | some ba =>
      obtain ⟨b, a⟩ := ba
      rw [splitSegs_some hfd] at hs
      rw [List.mem_cons] at hs
      cases hs with
      | inl hs =>
        subst hs
        obtain ⟨rest, hrest⟩ := startsWithL_ex hcs
        rw [hrest, findDelim_under ("Entry:".toList) (by decide) rest,
          Option.map_eq_some'] at hfd
        obtain ⟨⟨b', a'⟩, _, hp⟩ := hfd
        injection hp with h1 _
        subst h1
        exact startsWithL_self_append _ _
      | inr hs =>
        cases n with
        | zero =>
          rw [Nat.le_zero, List.length_eq_zero] at hlen
          subst hlen
          cases hfd
        | succ n =>
          have hlt := findDelim_length hfd
          exact splitSegs_entry n a (by omega) (findDelim_after hfd) s hs

theorem filterMap_singleton_len {α β : Type} (f : α → Option β) (x : α) :
    (List.filterMap f [x]).length ≤ 1 := by
  rw [List.filterMap_cons]
  cases f x with
  | none => exact Nat.zero_le 1
  | some b => exact Nat.le_refl 1

def c2body : Str :=
  ("Entry: A 2024-01-01T00:00:00Z\nx\n---\n\nEntry: B 2024-01-02T00:00:00Z\ny").toList

/-- C2 counterexample: in this body the bare `---` line is followed by a
blank line — not by a line beginning with `Entry:` — yet the split fires
(the `\s*` of the delimiter absorbs the blank line): the body parses to two
entries and the `---` text survives in neither body, refuting the claim that
such a `---` never increases the entry count and stays verbatim. -/
theorem C2_segmenter_counterexample :
    (parseEntries c2body).length = 2 ∧
    (parseEntries c2body).map Entry.body = ["x".toList, "y".toList] := by decide

/-! ## Projection API for `parseThreadFileCore` -/

theorem doc_metadata (content stem : Str) :
    (parseThreadFileCore content stem).metadata
      = (parseHeaderLines (splitHeaderAndBody content).1 stem).2.1 := rfl

theorem doc_header_order (content stem : Str) :
    (parseThreadFileCore content stem).header_order
      = (parseHeaderLines (splitHeaderAndBody content).1 stem).2.2 := rfl

theorem doc_title (content stem : Str) :
    (parseThreadFileCore content stem).title
      = (parseHeaderLines (splitHeaderAndBody content).1 stem).1 := rfl

theorem doc_status (content stem : Str) :
    (parseThreadFileCore content stem).status
      = docStatus (parseThreadFileCore content stem).metadata := rfl

theorem doc_entries (content stem : Str) :
    (parseThreadFileCore content stem).entries
      = finalizeEntries
          (hasNewFlag (parseThreadFileCore content stem).metadata
            (parseEntries (splitHeaderAndBody content).2))
          (parseEntries (splitHeaderAndBody content).2) := rfl

theorem doc_entry_count (content stem : Str) :
    (parseThreadFileCore content stem).entry_count
      = (parseThreadFileCore content stem).entries.length := rfl

theorem doc_has_new (content stem : Str) :
    (parseThreadFileCore content stem).has_new
      = lastIsNew (parseThreadFileCore content stem).entries := rfl

/-! ## Entry list facts for C1 / C4 -/

theorem author_clearNew (e : Entry) : (clearNew e).author = e.author := rfl

theorem map_author_clear (es : List Entry) :
    (es.map clearNew).map Entry.author = es.map Entry.author := by
  rw [List.map_map]
  exact List.map_congr_left (fun e _ => rfl)

theorem map_author_setLast : ∀ (es : List Entry),
    (setLastNew es).map Entry.author = es.map Entry.author
  | [] => rfl
  | [e] => rfl
  | e :: f :: es => by
    show e.author :: (setLastNew (f :: es)).map Entry.author = _
    rw [map_author_setLast (f :: es)]
    rfl

theorem length_setLast : ∀ (es : List Entry), (setLastNew es).length = es.length
  | [] => rfl
  | [e] => rfl
  | e :: f :: es => by
    show (setLastNew (f :: es)).length + 1 = _
    rw [length_setLast (f :: es)]
    rfl

theorem length_finalize (flag : Bool) (es0 : List Entry) :
    (finalizeEntries flag es0).length = es0.length := by
  unfold finalizeEntries
  split
  · rw [length_setLast, List.length_map]
  · rw [List.length_map]

theorem lastAuthorOf_finalize (flag : Bool) (es0 : List Entry) :
    lastAuthorOf (finalizeEntries flag es0) = lastAuthorOf es0 := by
  unfold lastAuthorOf
  unfold finalizeEntries
  split
  · rw [map_author_setLast, map_author_clear]
  · rw [map_author_clear]

theorem finalize_ne_nil_iff (flag : Bool) (es0 : List Entry) :
    finalizeEntries flag es0 ≠ [] ↔ es0 ≠ [] := by
  rw [Ne, Ne, ← List.length_eq_zero, ← List.length_eq_zero, length_finalize]

theorem setLast_getLast?_isnew : ∀ (es : List Entry), es ≠ [] →
    ∃ e, (setLastNew es).getLast? = some e ∧ e.is_new = true
  | [], h => absurd rfl h
  | [e], _ => ⟨{ e with is_new := true }, rfl, rfl⟩
  | e :: f :: es, _ => by
    obtain ⟨e', he', hn⟩ := setLast_getLast?_isnew (f :: es) (by simp)
    refine ⟨e', ?_, hn⟩
    show (e :: setLastNew (f :: es)).getLast? = some e'
    rw [List.getLast?_cons]
    rw [he']
    rfl

theorem clear_getLast?_isnew (es : List Entry) :
    ∀ e, (es.map clearNew).getLast? = some e → e.is_new = false := by
  intro e he
  have hm : e ∈ es.map clearNew := List.mem_of_mem_getLast? (he ▸ rfl)
  rw [List.mem_map] at hm
  obtain ⟨f, _, hf⟩ := hm
  rw [← hf]
  rfl

theorem lastIsNew_finalize (flag : Bool) (es0 : List Entry) :
    lastIsNew (finalizeEntries flag es0) = (flag && decide (es0 ≠ [])) := by
  by_cases h0 : es0 = []
  · subst h0
    unfold finalizeEntries
    rw [if_neg (by rintro ⟨_, h⟩; exact h rfl)]
    show lastIsNew [] = _
    rw [show lastIsNew [] = false from rfl]
    simp
  · cases hf : flag with
    | true =>
      unfold finalizeEntries
      rw [if_pos ⟨rfl, by
        rw [Ne, ← List.length_eq_zero, List.length_map, List.length_eq_zero]; exact h0⟩]
      obtain ⟨e, he, hn⟩ := setLast_getLast?_isnew (es0.map clearNew)
        (by rw [Ne, ← List.length_eq_zero, List.length_map, List.length_eq_zero]; exact h0)
      unfold lastIsNew
      rw [he]
      show (decide (setLastNew (es0.map clearNew) ≠ []) && e.is_new)
        = (true && decide (es0 ≠ []))
      rw [hn]
      rw [decide_eq_true (show setLastNew (es0.map clearNew) ≠ [] by
        intro hc
        rw [← List.length_eq_zero, length_setLast, List.length_map,
          List.length_eq_zero] at hc
        exact h0 hc)]
      simp [h0]
    | false =>
      unfold finalizeEntries
      rw [if_neg (by rintro ⟨h, _⟩; cases h)]
      cases he : (es0.map clearNew).getLast? with
      | none =>
        rw [List.getLast?_eq_none_iff] at he
        rw [List.map_eq_nil_iff] at he
        exact absurd he h0
      | some e =>
        unfold lastIsNew
        rw [he]
        show (decide (es0.map clearNew ≠ []) && e.is_new) = (false && decide (es0 ≠ []))
        rw [clear_getLast?_isnew es0 e he]
        simp

set_option maxHeartbeats 2000000 in
/-- C1 (amended): `hasNew` is true iff the entry list is non-empty, the
normalized author of the last entry THAT HAS a non-empty author is non-empty
and differs from the normalized Ball value, and the status is not CLOSED
case-insensitively.  (The code scans `reversed(entries)` for the first truthy
author; the spec's "author of the last entry" is wrong when the last entry
has no author.) -/
theorem C1_hasNew_amended (content stem : Str) :
    (parseThreadFileCore content stem).has_new = true ↔
      ((parseThreadFileCore content stem).entries ≠ [] ∧
       normalizeS (lastAuthorOf (parseThreadFileCore content stem).entries) ≠ [] ∧
       normalizeS (lastAuthorOf (parseThreadFileCore content stem).entries)
         ≠ normalizeS ((alGet (parseThreadFileCore content stem).metadata
             ("Ball".toList)).getD []) ∧
       upperS (parseThreadFileCore content stem).status ≠ "CLOSED".toList) := by
  rw [doc_has_new, doc_entries, doc_status, doc_metadata]
  generalize (parseHeaderLines (splitHeaderAndBody content).1 stem).2.1 = md
  generalize parseEntries (splitHeaderAndBody content).2 = es0
  rw [lastIsNew_finalize, lastAuthorOf_finalize, finalize_ne_nil_iff]
  unfold hasNewFlag
  simp only [Bool.and_eq_true, decide_eq_true_eq]
  tauto

def c1doc : Str :=
  ("# t\nStatus: OPEN\nBall: Bob\n\n---\nEntry: Alice 2024-01-01T00:00:00Z\nhi\n---\nEntry:\nbye\n").toList

set_option maxHeartbeats 2000000 in
/-- C1 counterexample: in this document the LAST entry has no author (its
`Entry:` field is empty, so the parsed author is `none`, which normalizes to
the empty string); the claim therefore predicts `hasNew = false`, but the
code walks backwards to the previous entry's author "Alice" (≠ Ball "Bob",
status OPEN) and yields `hasNew = true`. -/
theorem C1_hasNew_counterexample :
    (parseThreadFileCore c1doc ("t".toList)).has_new = true ∧
    ((parseThreadFileCore c1doc ("t".toList)).entries.getLast?).map Entry.author
      = some none ∧
    upperS (parseThreadFileCore c1doc ("t".toList)).status ≠ "CLOSED".toList := by
  decide

theorem clear_mem_isnew {es : List Entry} {e : Entry} (h : e ∈ es.map clearNew) :
    e.is_new = false := by
  rw [List.mem_map] at h
  obtain ⟨f, _, hf⟩ := h
  rw [← hf]
  rfl

theorem mem_dropLast_setLast : ∀ {es : List Entry} {e : Entry},
    e ∈ (setLastNew es).dropLast → e ∈ es
  | [], e, h => by cases h
  | [f], e, h => by cases h
  | f :: g :: es, e, h => by
    have hne : setLastNew (g :: es) ≠ [] := by
      rw [Ne, ← List.length_eq_zero, length_setLast]
      simp
    rw [show setLastNew (f :: g :: es) = f :: setLastNew (g :: es) from rfl,
      List.dropLast_cons_of_ne_nil hne, List.mem_cons] at h
    cases h with
    | inl h => exact h ▸ List.mem_cons_self _ _
    | inr h => exact List.mem_cons_of_mem _ (mem_dropLast_setLast h)

theorem lastIsNew_getLast? {es : List Entry} {e : Entry} (h : es.getLast? = some e) :
    lastIsNew es = e.is_new := by
  have hne : es ≠ [] := by
    intro h0
    subst h0
    cases h
  unfold lastIsNew
  rw [h, decide_eq_true hne]
  show (true && e.is_new) = e.is_new
  simp

/-- C4: at most one entry carries `isNew`, and only the last is eligible:
every entry before the last has `isNew = false`, and the last entry's `isNew`
equals the document's `hasNew` flag — regardless of `NEW` markers in entry
`Type` fields (the parser overwrites every `is_new` before assigning). -/
theorem C4_isNew_invariant (content stem : Str) :
    (∀ e ∈ (parseThreadFileCore content stem).entries.dropLast, e.is_new = false) ∧
    (∀ e, (parseThreadFileCore content stem).entries.getLast? = some e →
      e.is_new = (parseThreadFileCore content stem).has_new) := by
  constructor
  · intro e he
    rw [doc_entries] at he
    unfold finalizeEntries at he
    split at he
    · exact clear_mem_isnew (mem_dropLast_setLast he)
    · exact clear_mem_isnew (List.dropLast_subset _ he)
  · intro e he
    rw [doc_has_new, lastIsNew_getLast? he]

/-- Witness for C4 at a concrete document whose entries carry `Type: NEW`
markers that must not leak into `isNew`. -/
def c4doc : Str :=
  ("# t\nStatus: OPEN\nBall: Ann\n\n---\nEntry: Ann 2024-01-01T00:00:00Z\nType: NEW\na\n---\nEntry: Ann 2024-01-02T00:00:00Z\nType: NEW\nb\n").toList

set_option maxHeartbeats 2000000 in
theorem C4_isNew_invariant_witness :
    ((∀ e ∈ (parseThreadFileCore c4doc ("t".toList)).entries.dropLast, e.is_new = false) ∧
     (∀ e, (parseThreadFileCore c4doc ("t".toList)).entries.getLast? = some e →
       e.is_new = (parseThreadFileCore c4doc ("t".toList)).has_new)) ∧
    (parseThreadFileCore c4doc ("t".toList)).entries.map Entry.is_new = [false, false] :=
  ⟨C4_isNew_invariant c4doc ("t".toList), by decide⟩

/-! ## C3: entry sub-header grammar -/

theorem segMeta_cons (m : KVList) (l : Str) (ls : List Str) :
    segMeta m (l :: ls) =
      if pstrip l = [] then (m, ls)
      else
        match matchFieldLoose l with
        | none => (m, l :: ls)
        | some kv => segMeta (alSet m kv.1 kv.2) ls := by
  conv_lhs => unfold segMeta

theorem matchFieldLoose_colon (k : Str) (hk0 : k ≠ []) (hkw : ∀ c ∈ k, wordish c = true) :
    matchFieldLoose (k ++ [':']) = some (pstrip k, []) := by
  have hnl : ('\n' : Char) ∉ k ++ [':'] := by
    rw [List.mem_append]
    rintro (h | h)
    · exact wordish_no_nl hkw h
    · rw [List.mem_singleton] at h
      cases h
  have htw : (k ++ [':']).takeWhile wordish = k := by
    rw [List.takeWhile_append_of_pos hkw, List.takeWhile_cons,
      if_neg (by simp [show wordish ':' = false from by decide]), List.append_nil]
  have hdw : (k ++ [':']).dropWhile wordish = [':'] := by
    rw [List.dropWhile_append_of_pos hkw, List.dropWhile_cons,
      if_neg (by simp [show wordish ':' = false from by decide])]
  unfold matchFieldLoose
  rw [if_neg hnl, htw, if_neg hk0, hdw]
  rfl

/-- C3 (amended): the entry sub-header grammar is `^([\w \-]+):\s*(.*)$` — the
value may be EMPTY, unlike the header codec's `^([\w \-]+):\s*(.+)$`.  A line
`Key:` with nothing after the colon therefore DOES match: it records the key
with an empty value and the sub-header run continues into the following
lines, instead of terminating there. -/
theorem C3_subheader_amended (k : Str) (hk0 : k ≠ []) (hkw : ∀ c ∈ k, wordish c = true)
    (m : KVList) (ls : List Str) :
    segMeta m ((k ++ [':']) :: ls) = segMeta (alSet m (pstrip k) []) ls := by
  rw [segMeta_cons]
  rw [if_neg (pstrip_ne_nil_of_mem
    (by rw [List.mem_append]; exact Or.inr (List.mem_singleton_self ':'))
    (by decide))]
  rw [matchFieldLoose_colon k hk0 hkw]

theorem C3_subheader_amended_witness :
    (("Key".toList : Str) ≠ [] ∧ ∀ c ∈ ("Key".toList : Str), wordish c = true) ∧
    segMeta [] (("Key".toList ++ [':']) :: ["rest".toList])
      = segMeta (alSet [] (pstrip ("Key".toList)) []) ["rest".toList] :=
  ⟨⟨by decide, by decide⟩,
    C3_subheader_amended ("Key".toList) (by decide) (by decide) [] ["rest".toList]⟩

def c3body : Str := ("Entry: Alice 2024-01-01T00:00:00Z\nKey:\nrest").toList

set_option maxHeartbeats 2000000 in
/-- C3 counterexample: the claim says a `Key:` line (no value) fails to
match, terminates the sub-header run and stays in the entry body; in the
code it matches with an empty value: the parsed entry records `Key ↦ ""` in
its metadata and its body is just `"rest"`. -/
theorem C3_subheader_counterexample :
    (parseEntries c3body).map (fun e => (alGet e.meta ("Key".toList), e.body))
      = [(some [], "rest".toList)] := by decide

/-- C10: when the first header line starts with `#` but is nothing except
`#` characters and whitespace, the parsed title falls back to the supplied
default (derived from the file name); in particular it is non-empty whenever
the default is. -/
theorem C10_default_title (l0 : Str) (ls : List Str) (d : Str)
    (hs : startsWithL ['#'] (pstrip l0) = true)
    (hb : pstrip ((pstrip l0).dropWhile (fun c => c = '#')) = []) :
    (parseHeaderLines (l0 :: ls) d).1 = d ∧
    (d ≠ [] → (parseHeaderLines (l0 :: ls) d).1 ≠ []) := by
  have h1 : (parseHeaderLines (l0 :: ls) d).1 = d := by
    rw [parseHeaderLines_cons, if_pos hs]
    show (if pstrip ((pstrip l0).dropWhile (fun c => c = '#')) = [] then d
        else pstrip ((pstrip l0).dropWhile (fun c => c = '#'))) = d
    rw [if_pos hb]
  refine ⟨h1, fun hd => ?_⟩
  rw [h1]
  exact hd

theorem C10_default_title_witness :
    (startsWithL ['#'] (pstrip ("##  ".toList)) = true ∧
     pstrip ((pstrip ("##  ".toList)).dropWhile (fun c => c = '#')) = []) ∧
    ((parseHeaderLines (("##  ".toList) :: ["Status: OPEN".toList]) ("file".toList)).1
        = "file".toList ∧
     (("file".toList : Str) ≠ [] →
       (parseHeaderLines (("##  ".toList) :: ["Status: OPEN".toList]) ("file".toList)).1 ≠ [])) :=
  ⟨⟨by decide, by decide⟩,
    C10_default_title ("##  ".toList) ["Status: OPEN".toList] ("file".toList)
      (by decide) (by decide)⟩

/-! ## Reassembled-content lemmas for the update engine -/

theorem mem_of_mem_dropWhileG {α : Type} {p : α → Bool} {x : α} :
    ∀ {l : List α}, x ∈ l.dropWhile p → x ∈ l
  | [], h => h
  | a :: l, h => by
    rw [List.dropWhile_cons] at h
    split at h
    · exact List.mem_cons_of_mem a (mem_of_mem_dropWhileG h)
    · exact h

theorem mem_dropTrailBlank {ls : List Str} {l : Str} (h : l ∈ dropTrailBlank ls) :
    l ∈ ls := by
  unfold dropTrailBlank at h
  rw [List.mem_reverse] at h
  have := mem_of_mem_dropWhileG h
  rw [List.mem_reverse] at this
  exact this

theorem mem_hdrSpan_fst : ∀ {ls : List Str} {l : Str}, l ∈ (hdrSpan ls).1 → l ∈ ls := by
  intro ls
  induction ls with
  | nil => intro l h; cases h
  | cons a ls ih =>
    intro l h
    unfold hdrSpan at h
    by_cases ha : pstrip a = ['-', '-', '-']
    · rw [if_pos ha] at h
      cases h
    · rw [if_neg ha] at h
      rw [List.mem_cons] at h
      cases h with
      | inl h => exact h ▸ List.mem_cons_self _ _
      | inr h => exact List.mem_cons_of_mem _ (ih h)

theorem headerLines_no_nl (content : Str) :
    ∀ l ∈ (splitHeaderAndBody content).1, '\n' ∉ l := by
  intro l hl
  have h1 : l ∈ (hdrSpan (splitLines content)).1 := mem_dropTrailBlank hl
  exact splitLines_no_nl l (mem_hdrSpan_fst h1)

theorem body_stripped (content : Str) :
    pstrip (splitHeaderAndBody content).2 = (splitHeaderAndBody content).2 :=
  pstrip_idem _

theorem stripped_getLast_ne_nl {B : Str} (hB : pstrip B = B) :
    B.getLast? ≠ some '\n' := by
  intro h
  have hw := pstrip_last_of_self hB h
  rw [show pyws '\n' = true from by decide] at hw
  exact absurd hw (by decide)

theorem splitLines_snoc_nl : ∀ {cs : Str}, cs ≠ [] → cs.getLast? ≠ some '\n' →
    splitLines (cs ++ ['\n']) = splitLines cs
  | [], h, _ => absurd rfl h
  | c :: cs, _, hl => by
    cases cs with
    | nil =>
      have hc : c ≠ '\n' := by
        intro he
        exact hl (by rw [he]; rfl)
      rw [List.cons_append, List.nil_append, splitLines_cons hc ['\n'],
        splitLines_cons hc []]
      rfl
    | cons d cs =>
      have hl' : (d :: cs).getLast? ≠ some '\n' := by
        rw [List.getLast?_cons_cons] at hl
        exact hl
      by_cases hc : c = '\n'
      · subst hc
        rw [List.cons_append, splitLines_cons_nl, splitLines_cons_nl,
          splitLines_snoc_nl (by simp) hl']
      · rw [List.cons_append, splitLines_cons hc, splitLines_cons hc,
          splitLines_snoc_nl (by simp) hl']

theorem hdrSpan_cons (a : Str) (ls : List Str) :
    hdrSpan (a :: ls) =
      if pstrip a = ['-', '-', '-'] then ([], ls)
      else (a :: (hdrSpan ls).1, (hdrSpan ls).2) := by
  conv_lhs => unfold hdrSpan

theorem hdrSpan_skip : ∀ (pre rest : List Str), (∀ l ∈ pre, pstrip l ≠ ['-', '-', '-']) →
    hdrSpan (pre ++ rest) = (pre ++ (hdrSpan rest).1, (hdrSpan rest).2)
  | [], rest, _ => by simp
  | a :: pre, rest, h => by
    rw [List.cons_append, hdrSpan_cons]
    rw [if_neg (h a (List.mem_cons_self _ _))]
    rw [hdrSpan_skip pre rest (fun l hl => h l (List.mem_cons_of_mem _ hl))]
    rfl

theorem hdrSpan_dash (rest : List Str) :
    hdrSpan (['-', '-', '-'] :: rest) = ([], rest) := by
  rw [hdrSpan_cons, if_pos (by decide)]

theorem dropTrailBlank_snoc {ls : List Str} {b : Str} (hb : pstrip b = [])
    (hne : ls ≠ []) (hns : ∀ l ∈ ls, pstrip l ≠ []) :
    dropTrailBlank (ls ++ [b]) = ls := by
  unfold dropTrailBlank
  rw [List.reverse_append]
  show (((b :: []) ++ ls.reverse).dropWhile _).reverse = ls
  rw [List.cons_append, List.nil_append, List.dropWhile_cons,
    if_pos (by rw [hb]; rfl)]
  cases hrev : ls.reverse with
  | nil =>
    rw [List.reverse_eq_nil_iff] at hrev
    exact absurd hrev hne
  | cons x xs =>
    have hx : x ∈ ls := by
      rw [← List.mem_reverse, hrev]
      exact List.mem_cons_self _ _
    rw [List.dropWhile_cons, if_neg (by rw [decide_eq_true_eq]; exact hns x hx)]
    rw [← hrev, List.reverse_reverse]

theorem splitHeaderAndBody_eq (content : Str) :
    splitHeaderAndBody content
      = (dropTrailBlank (hdrSpan (splitLines content)).1,
         pstrip (joinNL ((hdrSpan (splitLines content)).2.dropWhile
           (fun l => decide (pstrip l = ['-', '-', '-']))))) := rfl

theorem colon_mem_lineOf (p : Str × Str) : (':' : Char) ∈ lineOf p := by
  unfold lineOf
  rw [List.mem_append]
  exact Or.inr (List.mem_cons_self _ _)

theorem lineOf_ne_dash {p : Str × Str} (hk : goodKey p.1) (hv : goodVal p.2) :
    pstrip (lineOf p) ≠ ['-', '-', '-'] := by
  rw [pstrip_lineOf_good hk hv]
  intro h
  have hm := colon_mem_lineOf p
  rw [h] at hm
  exact absurd hm (by decide)

theorem splitHB_rebuilt (t : Str) (m : KVList) (o : List Str) (B : Str)
    (ht : '\n' ∉ t) (hg : goodMap m) (hB : pstrip B = B) :
    splitHeaderAndBody (renderHeader t m o ++ '\n' :: '\n' :: '-' :: '-' :: '-' :: [] ++
        (if B = [] then ['\n'] else '\n' :: (B ++ ['\n'])))
      = (('#' :: ' ' :: t) :: (renderPairs m o).map lineOf,
         pstrip (joinNL ((splitLines B).dropWhile
           (fun l => decide (pstrip l = ['-', '-', '-']))))) := by
  have hP : goodMap (renderPairs m o) := goodMap_renderPairs hg
  have hhdr_nl : ∀ l ∈ ('#' :: ' ' :: t) :: (renderPairs m o).map lineOf, '\n' ∉ l := by
    intro l hl
    rw [List.mem_cons] at hl
    cases hl with
    | inl hl =>
      subst hl
      intro hm
      rw [List.mem_cons] at hm
      cases hm with
      | inl hm => cases hm
      | inr hm =>
        rw [List.mem_cons] at hm
        cases hm with
        | inl hm => cases hm
        | inr hm => exact ht hm
    | inr hl =>
      rw [List.mem_map] at hl
      obtain ⟨p, hp, hpl⟩ := hl
      exact hpl ▸ no_nl_lineOf (hP p hp).1 (hP p hp).2
  have hhdr_nb : ∀ l ∈ ('#' :: ' ' :: t) :: (renderPairs m o).map lineOf, pstrip l ≠ [] := by
    intro l hl
    rw [List.mem_cons] at hl
    cases hl with
    | inl hl =>
      subst hl
      exact pstrip_ne_nil_of_mem (List.mem_cons_self _ _) (by decide)
    | inr hl =>
      rw [List.mem_map] at hl
      obtain ⟨p, hp, hpl⟩ := hl
      subst hpl
      rw [pstrip_lineOf_good (hP p hp).1 (hP p hp).2]
      exact lineOf_ne_nil (hP p hp).1
  have hhdr_nd : ∀ l ∈ ('#' :: ' ' :: t) :: (renderPairs m o).map lineOf,
      pstrip l ≠ ['-', '-', '-'] := by
    intro l hl
    rw [List.mem_cons] at hl
    cases hl with
    | inl hl =>
      subst hl
      obtain ⟨w, hw⟩ := pstrip_cons_head_eq (show pyws '#' = false by decide) (' ' :: t)
      rw [hw]
      intro hc
      injection hc with hc _
      cases hc
    | inr hl =>
      rw [List.mem_map] at hl
      obtain ⟨p, hp, hpl⟩ := hl
      subst hpl
      exact lineOf_ne_dash (hP p hp).1 (hP p hp).2
  have hjoin : renderHeader t m o
      = joinNL (('#' :: ' ' :: t) :: (renderPairs m o).map lineOf) := rfl
  have hassoc : renderHeader t m o ++ '\n' :: '\n' :: '-' :: '-' :: '-' :: [] ++
        (if B = [] then ['\n'] else '\n' :: (B ++ ['\n']))
      = joinNL (('#' :: ' ' :: t) :: (renderPairs m o).map lineOf) ++
        '\n' :: ('\n' :: '-' :: '-' :: '-' ::
          (if B = [] then ['\n'] else '\n' :: (B ++ ['\n']))) := by
    rw [hjoin, List.append_assoc]
    rfl
  rw [hassoc]
  have hlines : splitLines (joinNL (('#' :: ' ' :: t) :: (renderPairs m o).map lineOf) ++
        '\n' :: ('\n' :: '-' :: '-' :: '-' ::
          (if B = [] then ['\n'] else '\n' :: (B ++ ['\n']))))
      = (('#' :: ' ' :: t) :: (renderPairs m o).map lineOf) ++
        splitLines ('\n' :: '-' :: '-' :: '-' ::
          (if B = [] then ['\n'] else '\n' :: (B ++ ['\n']))) :=
    splitLines_join hhdr_nl (by simp) _
  have hrest : splitLines ('\n' :: '-' :: '-' :: '-' ::
        (if B = [] then ['\n'] else '\n' :: (B ++ ['\n'])))
      = [] :: ['-', '-', '-'] :: splitLines B := by
    by_cases hBe : B = []
    · subst hBe
      rw [if_pos rfl]
      rw [show ('\n' :: '-' :: '-' :: '-' :: ['\n'] : Str)
          = '\n' :: (['-', '-', '-'] ++ '\n' :: []) from rfl]
      rw [splitLines_cons_nl, splitLines_append_nl (by decide)]
    · rw [if_neg hBe]
      rw [show ('\n' :: '-' :: '-' :: '-' :: '\n' :: (B ++ ['\n']) : Str)
          = '\n' :: (['-', '-', '-'] ++ '\n' :: (B ++ ['\n'])) from rfl]
      rw [splitLines_cons_nl, splitLines_append_nl (by decide),
        splitLines_snoc_nl hBe (stripped_getLast_ne_nl hB)]
  have hspan : hdrSpan ((('#' :: ' ' :: t) :: (renderPairs m o).map lineOf) ++
        ([] :: ['-', '-', '-'] :: splitLines B))
      = ((('#' :: ' ' :: t) :: (renderPairs m o).map lineOf) ++ [[]], splitLines B) := by
    rw [show (([] : Str) :: ['-', '-', '-'] :: splitLines B)
        = [([] : Str)] ++ (['-', '-', '-'] :: splitLines B) from rfl]
    rw [← List.append_assoc]
    rw [hdrSpan_skip _ _ ?hpre]
    case hpre =>
      intro l hl
      rw [List.mem_append] at hl
      cases hl with
      | inl hl => exact hhdr_nd l hl
      | inr hl =>
        rw [List.mem_singleton] at hl
        subst hl
        decide
    rw [hdrSpan_dash]
    simp
  have hfst : (hdrSpan ((('#' :: ' ' :: t) :: (renderPairs m o).map lineOf) ++
        ([] :: ['-', '-', '-'] :: splitLines B))).1
      = (('#' :: ' ' :: t) :: (renderPairs m o).map lineOf) ++ [[]] := by rw [hspan]
  have hsnd : (hdrSpan ((('#' :: ' ' :: t) :: (renderPairs m o).map lineOf) ++
        ([] :: ['-', '-', '-'] :: splitLines B))).2 = splitLines B := by rw [hspan]
  rw [splitHeaderAndBody_eq, hlines, hrest, hfst, hsnd]
  rw [dropTrailBlank_snoc (show pstrip ([] : Str) = [] from rfl) (by simp) hhdr_nb]

/-! ## Update-engine lemmas -/

theorem applyUpdates_nil (tmo : Str × KVList × List Str) : applyUpdates tmo [] = tmo := by
  obtain ⟨t, m, o⟩ := tmo
  rfl

theorem applyUpdates_priority (tmo : Str × KVList × List Str) :
    applyUpdates tmo [("Priority".toList, some ("P0".toList))]
      = (tmo.1, alSet tmo.2.1 ("Priority".toList) ("P0".toList),
         if "Priority".toList ∈ tmo.2.2 then tmo.2.2
         else tmo.2.2 ++ ["Priority".toList]) := by
  obtain ⟨t, m, o⟩ := tmo
  rfl

theorem goodMap_alSet {m : KVList} {k v : Str} (hg : goodMap m)
    (hk : goodKey k) (hv : goodVal v) : goodMap (alSet m k v) := by
  intro p hp
  cases mem_alSet hp with
  | inl h => exact hg p h
  | inr h => subst h; exact ⟨hk, hv⟩

/-- On a well-formed map all values survive the blank filter of the writer. -/
theorem emitVal_eq_alGet {m : KVList} (hg : goodMap m) (k : Str) :
    emitVal m k = alGet m k := by
  unfold emitVal
  cases hget : alGet m k with
  | none => rw [Option.none_bind]
  | some v =>
    rw [Option.some_bind]
    have hv := (hg (k, v) (alGet_some_mem hget)).2
    rw [if_neg (show ¬ pstrip v = [] from by rw [hv.2.1]; exact hv.1)]

/-- Reparsing the rendered header lines recovers exactly the emitted pairs. -/
theorem parseHeaderLines_rendered (t : Str) (m : KVList) (o : List Str)
    (hg : goodMap m) (d : Str) :
    (parseHeaderLines (('#' :: ' ' :: t) :: (renderPairs m o).map lineOf) d).2
      = (renderPairs m o, (renderPairs m o).map Prod.fst) := by
  have hP : goodMap (renderPairs m o) := goodMap_renderPairs hg
  have hsw : startsWithL ['#'] (pstrip ('#' :: ' ' :: t)) = true := by
    obtain ⟨w, hw⟩ := pstrip_cons_head_eq (show pyws '#' = false by decide) (' ' :: t)
    rw [hw]
    simp [startsWithL]
  rw [parseHeaderLines_cons, if_pos hsw]
  show headerFold [] [] ((renderPairs m o).map lineOf) = _
  rw [headerFold_lines _ hP]
  rw [foldl_alSet_nodup _ [] (fun p _ => List.not_mem_nil _) (nodup_fst_renderPairs m o)]
  rfl

/-- Bodies in the §6 document format: empty, or starting with an `Entry:`
line.  (A body whose first line is a bare `---` is NOT §6-valid, and indeed
the writer's reader eats such a line on re-parse.) -/
abbrev validBody (B : Str) : Prop :=
  B = [] ∨ startsWithL ("Entry:".toList) B = true

/-- On a §6-valid stripped body the reader's leading-`---` pop is a no-op. -/
theorem dropDash_validBody {B : Str} (hB : pstrip B = B) (hval : validBody B) :
    pstrip (joinNL ((splitLines B).dropWhile
      (fun l => decide (pstrip l = ['-', '-', '-'])))) = B := by
  cases hval with
  | inl h => subst h; rfl
  | inr h =>
    obtain ⟨r, hr⟩ := startsWithL_ex h
    have hw : B = 'E' :: ('n' :: 't' :: 'r' :: 'y' :: ':' :: r) := by rw [hr]; rfl
    cases hsl : splitLines B with
    | nil =>
      rw [splitLines_eq_nil_iff] at hsl
      rw [hsl] at hw
      cases hw
    | cons l0 rest =>
      have hl0 : ∃ u, l0 = 'E' :: u := by
        rw [hw, splitLines_cons (show ('E' : Char) ≠ '\n' from by decide)] at hsl
        cases hslw : splitLines ('n' :: 't' :: 'r' :: 'y' :: ':' :: r) with
        | nil =>
          rw [hslw] at hsl
          injection hsl with h1 _
          exact ⟨[], h1.symm⟩
        | cons l ls =>
          rw [hslw] at hsl
          injection hsl with h1 _
          exact ⟨l, h1.symm⟩
      obtain ⟨u, hu⟩ := hl0
      have hnd : ¬ (pstrip l0 = ['-', '-', '-']) := by
        subst hu
        obtain ⟨w', hw'⟩ := pstrip_cons_head_eq (show pyws 'E' = false by decide) u
        rw [hw']
        intro hc
        injection hc with hc _
        cases hc
      rw [List.dropWhile_cons, if_neg (by simp only [decide_eq_true_eq]; exact hnd)]
      rw [← hsl, joinNL_splitLines (stripped_getLast_ne_nl hB), hB]

/-- What the reader sees after the writer rewrote the file. -/
theorem splitHB_update (content stem : Str) (us : List (Str × Option Str))
    (hg : goodMap (applyUpdates
        (parseHeaderLines (splitHeaderAndBody content).1 stem) us).2.1)
    (ht : '\n' ∉ (applyUpdates
        (parseHeaderLines (splitHeaderAndBody content).1 stem) us).1) :
    splitHeaderAndBody (updateContent content stem us)
      = (('#' :: ' ' :: (applyUpdates
              (parseHeaderLines (splitHeaderAndBody content).1 stem) us).1)
           :: (renderPairs
                (applyUpdates
                  (parseHeaderLines (splitHeaderAndBody content).1 stem) us).2.1
                (applyUpdates
                  (parseHeaderLines (splitHeaderAndBody content).1 stem) us).2.2).map lineOf,
         pstrip (joinNL ((splitLines (splitHeaderAndBody content).2).dropWhile
           (fun l => decide (pstrip l = ['-', '-', '-']))))) := by
  unfold updateContent
  rw [body_stripped]
  exact splitHB_rebuilt _ _ _ _ ht hg (body_stripped content)

/-- C6: on an existing document whose body is §6-valid (empty or starting
with an `Entry:` line), `update_thread_metadata` with the single update
`{"Priority": "P0"}` succeeds and changes only the Priority field: the body
text extracted by the splitter is byte-identical before and after, the
entry count is unchanged, Priority reads back as `P0`, and every other
metadata key keeps its value. -/
theorem C6_priority_frame (fs : KVList) (path stem content : Str)
    (hget : alGet fs path = some content) (hstem : '\n' ∉ stem)
    (hval : validBody (splitHeaderAndBody content).2) :
    (updateThreadMetadata fs path stem [("Priority".toList, some ("P0".toList))]).2
      = Except.ok (parseThreadFileCore
          (updateContent content stem [("Priority".toList, some ("P0".toList))]) stem) ∧
    (splitHeaderAndBody
        (updateContent content stem [("Priority".toList, some ("P0".toList))])).2
      = (splitHeaderAndBody content).2 ∧
    (parseThreadFileCore
        (updateContent content stem [("Priority".toList, some ("P0".toList))])
        stem).entry_count
      = (parseThreadFileCore content stem).entry_count ∧
    alGet (parseThreadFileCore
        (updateContent content stem [("Priority".toList, some ("P0".toList))])
        stem).metadata ("Priority".toList)
      = some ("P0".toList) ∧
    ∀ k, k ≠ "Priority".toList →
      alGet (parseThreadFileCore
          (updateContent content stem [("Priority".toList, some ("P0".toList))])
          stem).metadata k
        = alGet (parseThreadFileCore content stem).metadata k := by
  have hgm : goodMap (parseHeaderLines (splitHeaderAndBody content).1 stem).2.1 :=
    (parseHeaderLines_inv (splitHeaderAndBody content).1 stem).1
  have hgood : goodMap (alSet (parseHeaderLines (splitHeaderAndBody content).1 stem).2.1
      ("Priority".toList) ("P0".toList)) :=
    goodMap_alSet hgm ⟨by decide, by decide, by decide⟩ ⟨by decide, by decide, by decide⟩
  have ht : '\n' ∉ (parseHeaderLines (splitHeaderAndBody content).1 stem).1 :=
    parseTitle_no_nl _ stem (headerLines_no_nl content) hstem
  have hau := applyUpdates_priority (parseHeaderLines (splitHeaderAndBody content).1 stem)
  have hsplit := splitHB_update content stem [("Priority".toList, some ("P0".toList))]
    (by rw [hau]; exact hgood) (by rw [hau]; exact ht)
  rw [hau] at hsplit
  have hbodyeq : (splitHeaderAndBody (updateContent content stem
      [("Priority".toList, some ("P0".toList))])).2 = (splitHeaderAndBody content).2 := by
    rw [hsplit]
    exact dropDash_validBody (body_stripped content) hval
  have hhdr : (splitHeaderAndBody (updateContent content stem
      [("Priority".toList, some ("P0".toList))])).1
      = ('#' :: ' ' :: (parseHeaderLines (splitHeaderAndBody content).1 stem).1)
        :: (renderPairs
              (alSet (parseHeaderLines (splitHeaderAndBody content).1 stem).2.1
                ("Priority".toList) ("P0".toList))
              (if "Priority".toList ∈ (parseHeaderLines (splitHeaderAndBody content).1 stem).2.2
               then (parseHeaderLines (splitHeaderAndBody content).1 stem).2.2
               else (parseHeaderLines (splitHeaderAndBody content).1 stem).2.2
                 ++ ["Priority".toList])).map lineOf := by
    rw [hsplit]
  have hPH := parseHeaderLines_rendered
    (parseHeaderLines (splitHeaderAndBody content).1 stem).1
    (alSet (parseHeaderLines (splitHeaderAndBody content).1 stem).2.1
      ("Priority".toList) ("P0".toList))
    (if "Priority".toList ∈ (parseHeaderLines (splitHeaderAndBody content).1 stem).2.2
     then (parseHeaderLines (splitHeaderAndBody content).1 stem).2.2
     else (parseHeaderLines (splitHeaderAndBody content).1 stem).2.2
       ++ ["Priority".toList])
    hgood stem
  have hmeta : (parseThreadFileCore (updateContent content stem
      [("Priority".toList, some ("P0".toList))]) stem).metadata
      = renderPairs
          (alSet (parseHeaderLines (splitHeaderAndBody content).1 stem).2.1
            ("Priority".toList) ("P0".toList))
          (if "Priority".toList ∈ (parseHeaderLines (splitHeaderAndBody content).1 stem).2.2
           then (parseHeaderLines (splitHeaderAndBody content).1 stem).2.2
           else (parseHeaderLines (splitHeaderAndBody content).1 stem).2.2
             ++ ["Priority".toList]) := by
    rw [doc_metadata, hhdr, hPH]
  refine ⟨?_, hbodyeq, ?_, ?_, ?_⟩
  · unfold updateThreadMetadata
    rw [hget]
  · rw [doc_entry_count, doc_entry_count, doc_entries, doc_entries,
      length_finalize, length_finalize, hbodyeq]
  · rw [hmeta, alGet_renderPairs, emitVal_eq_alGet hgood, alGet_alSet_self]
  · intro k hk
    rw [hmeta, alGet_renderPairs, emitVal_eq_alGet hgood,
      alGet_alSet_ne _ _ hk, doc_metadata]

def c6doc : Str :=
  ("# T\nStatus: OPEN\nBall: A\n\n---\nEntry: B 2024-01-01T00:00:00Z\nType: Note\n\nhello").toList

def c6fs : KVList := [("p".toList, c6doc)]

set_option maxHeartbeats 2000000 in
/-- Witness for C6 at a concrete one-file filesystem: the update succeeds,
the body is unchanged, the entry count stays 1, Priority reads back `P0`
and every other key keeps its value. -/
theorem C6_priority_frame_witness :
    (alGet c6fs ("p".toList) = some c6doc ∧ '\n' ∉ "t".toList ∧
      validBody (splitHeaderAndBody c6doc).2) ∧
    ((updateThreadMetadata c6fs ("p".toList) ("t".toList)
        [("Priority".toList, some ("P0".toList))]).2
      = Except.ok (parseThreadFileCore
          (updateContent c6doc ("t".toList) [("Priority".toList, some ("P0".toList))])
          ("t".toList)) ∧
     (splitHeaderAndBody (updateContent c6doc ("t".toList)
        [("Priority".toList, some ("P0".toList))])).2 = (splitHeaderAndBody c6doc).2 ∧
     (parseThreadFileCore (updateContent c6doc ("t".toList)
        [("Priority".toList, some ("P0".toList))]) ("t".toList)).entry_count
      = (parseThreadFileCore c6doc ("t".toList)).entry_count ∧
     alGet (parseThreadFileCore (updateContent c6doc ("t".toList)
        [("Priority".toList, some ("P0".toList))]) ("t".toList)).metadata
        ("Priority".toList)
      = some ("P0".toList) ∧
     ∀ k, k ≠ "Priority".toList →
       alGet (parseThreadFileCore (updateContent c6doc ("t".toList)
          [("Priority".toList, some ("P0".toList))]) ("t".toList)).metadata k
        = alGet (parseThreadFileCore c6doc ("t".toList)).metadata k) :=
  ⟨⟨by decide, by decide, Or.inr (by decide)⟩,
   C6_priority_frame c6fs ("p".toList) ("t".toList) c6doc (by decide) (by decide)
     (Or.inr (by decide))⟩

theorem applyUpdates_blank (tmo : Str × KVList × List Str) (k : Str) (v : Option Str)
    (hkt : ¬ pstrip k = "Title".toList)
    (hblank : v = none ∨ ∃ s, v = some s ∧ pstrip s = []) :
    applyUpdates tmo [(k, v)] = (tmo.1, alPop tmo.2.1 (pstrip k), tmo.2.2) := by
  obtain ⟨t, m, o⟩ := tmo
  cases hblank with
  | inl h =>
    subst h
    conv_lhs => unfold applyUpdates
    rw [if_neg hkt]
    exact applyUpdates_nil _
  | inr h =>
    obtain ⟨s, hv, hs⟩ := h
    subst hv
    conv_lhs => unfold applyUpdates
    rw [if_neg hkt]
    show (if pstrip s = [] then applyUpdates (t, alPop m (pstrip k), o) []
        else applyUpdates (t,
          alSet m (pstrip k)
            (if pstrip k = "Status".toList ∨ pstrip k = "Priority".toList
             then upperS (pstrip s) else pstrip s),
          (if pstrip k ∈ o then o else o ++ [pstrip k])) []) = _
    rw [if_pos hs]
    exact applyUpdates_nil _

theorem key_not_in_renderPairs {m : KVList} {k : Str} (h : alGet m k = none)
    (o : List Str) : k ∉ (renderPairs m o).map Prod.fst := by
  intro hm
  have hsome := (alGet_isSome_iff (renderPairs m o) k).mpr hm
  rw [alGet_renderPairs] at hsome
  unfold emitVal at hsome
  rw [h, Option.none_bind] at hsome
  exact absurd hsome (by decide)

/-- C7: on an existing document, an update for a key other than `Title`
whose value is null or whitespace-only removes the (stripped) key: it is
popped from the metadata map by the update loop, and after the rewritten
file is re-parsed the key has no value and appears in no rendered header
line.  The call itself succeeds. -/
theorem C7_blank_removes (fs : KVList) (path stem content : Str) (k : Str) (v : Option Str)
    (hget : alGet fs path = some content) (hstem : '\n' ∉ stem)
    (hkt : ¬ pstrip k = "Title".toList)
    (hblank : v = none ∨ ∃ s, v = some s ∧ pstrip s = []) :
    alGet (applyUpdates (parseHeaderLines (splitHeaderAndBody content).1 stem)
        [(k, v)]).2.1 (pstrip k) = none ∧
    alGet (parseThreadFileCore (updateContent content stem [(k, v)]) stem).metadata
        (pstrip k) = none ∧
    pstrip k ∉ ((parseThreadFileCore (updateContent content stem [(k, v)])
        stem).metadata.map Prod.fst) ∧
    (updateThreadMetadata fs path stem [(k, v)]).2
      = Except.ok (parseThreadFileCore (updateContent content stem [(k, v)]) stem) := by
  have hgm : goodMap (parseHeaderLines (splitHeaderAndBody content).1 stem).2.1 :=
    (parseHeaderLines_inv (splitHeaderAndBody content).1 stem).1
  have hau := applyUpdates_blank (parseHeaderLines (splitHeaderAndBody content).1 stem)
    k v hkt hblank
  have hgood : goodMap (alPop (parseHeaderLines (splitHeaderAndBody content).1 stem).2.1
      (pstrip k)) := fun p hp => hgm p (mem_alPop hp)
  have ht : '\n' ∉ (parseHeaderLines (splitHeaderAndBody content).1 stem).1 :=
    parseTitle_no_nl _ stem (headerLines_no_nl content) hstem
  have hsplit := splitHB_update content stem [(k, v)]
    (by rw [hau]; exact hgood) (by rw [hau]; exact ht)
  rw [hau] at hsplit
  have hhdr : (splitHeaderAndBody (updateContent content stem [(k, v)])).1
      = ('#' :: ' ' :: (parseHeaderLines (splitHeaderAndBody content).1 stem).1)
        :: (renderPairs
              (alPop (parseHeaderLines (splitHeaderAndBody content).1 stem).2.1 (pstrip k))
              (parseHeaderLines (splitHeaderAndBody content).1 stem).2.2).map lineOf := by
    rw [hsplit]
  have hPH := parseHeaderLines_rendered
    (parseHeaderLines (splitHeaderAndBody content).1 stem).1
    (alPop (parseHeaderLines (splitHeaderAndBody content).1 stem).2.1 (pstrip k))
    (parseHeaderLines (splitHeaderAndBody content).1 stem).2.2
    hgood stem
  have hmeta : (parseThreadFileCore (updateContent content stem [(k, v)]) stem).metadata
      = renderPairs
          (alPop (parseHeaderLines (splitHeaderAndBody content).1 stem).2.1 (pstrip k))
          (parseHeaderLines (splitHeaderAndBody content).1 stem).2.2 := by
    rw [doc_metadata, hhdr, hPH]
  refine ⟨?_, ?_, ?_, ?_⟩
  · rw [hau]
    exact alGet_alPop_self _ _
  · rw [hmeta, alGet_renderPairs]
    unfold emitVal
    rw [alGet_alPop_self, Option.none_bind]
  · rw [hmeta]
    exact key_not_in_renderPairs (alGet_alPop_self _ _) _
  · unfold updateThreadMetadata
    rw [hget]

def c7doc : Str :=
  ("# T\nStatus: OPEN\nBall: A\n\n---\nEntry: B 2024-01-01T00:00:00Z\n\nhi").toList

def c7fs : KVList := [("p".toList, c7doc)]

set_option maxHeartbeats 2000000 in
/-- Witness for C7: updating `Ball` with the whitespace-only value `"  "`
removes the key from the map and from every rendered header line. -/
theorem C7_blank_removes_witness :
    (alGet c7fs ("p".toList) = some c7doc ∧ '\n' ∉ "t".toList ∧
      ¬ pstrip ("Ball".toList) = "Title".toList ∧
      ((some ("  ".toList) : Option Str) = none ∨
        ∃ s, (some ("  ".toList) : Option Str) = some s ∧ pstrip s = [])) ∧
    (alGet (applyUpdates (parseHeaderLines (splitHeaderAndBody c7doc).1 ("t".toList))
        [("Ball".toList, some ("  ".toList))]).2.1 (pstrip ("Ball".toList)) = none ∧
     alGet (parseThreadFileCore
        (updateContent c7doc ("t".toList) [("Ball".toList, some ("  ".toList))])
        ("t".toList)).metadata (pstrip ("Ball".toList)) = none ∧
     pstrip ("Ball".toList) ∉ ((parseThreadFileCore
        (updateContent c7doc ("t".toList) [("Ball".toList, some ("  ".toList))])
        ("t".toList)).metadata.map Prod.fst) ∧
     (updateThreadMetadata c7fs ("p".toList) ("t".toList)
        [("Ball".toList, some ("  ".toList))]).2
      = Except.ok (parseThreadFileCore
          (updateContent c7doc ("t".toList) [("Ball".toList, some ("  ".toList))])
          ("t".toList))) :=
  ⟨⟨by decide, by decide, by decide, Or.inr ⟨"  ".toList, rfl, by decide⟩⟩,
   C7_blank_removes c7fs ("p".toList) ("t".toList) c7doc ("Ball".toList)
     (some ("  ".toList)) (by decide) (by decide) (by decide)
     (Or.inr ⟨"  ".toList, rfl, by decide⟩)⟩

/-- C8: a missing source path makes `update_thread_metadata` fail with the
not-found error and leaves the filesystem untouched; an existing path gets
the complete new content installed in a single step, and no other file is
ever written. -/
theorem C8_atomic_write (fs : KVList) (path stem : Str) (us : List (Str × Option Str)) :
    (alGet fs path = none →
      updateThreadMetadata fs path stem us = (fs, Except.error notFoundMsg)) ∧
    (∀ content, alGet fs path = some content →
      updateThreadMetadata fs path stem us
        = (alSet fs path (updateContent content stem us),
           Except.ok (parseThreadFileCore (updateContent content stem us) stem)) ∧
      ∀ q, q ≠ path → alGet (updateThreadMetadata fs path stem us).1 q = alGet fs q) := by
  constructor
  · intro h
    unfold updateThreadMetadata
    rw [h]
  · intro content hc
    constructor
    · unfold updateThreadMetadata
      rw [hc]
    · intro q hq
      unfold updateThreadMetadata
      rw [hc]
      exact alGet_alSet_ne _ _ hq

def c8doc : Str := ("# T\nStatus: OPEN").toList

def c8fs : KVList := [("p".toList, c8doc)]

/-- Witness for C8: on a one-file filesystem, updating the missing path `q`
errors and changes nothing, while updating the present path `p` installs
the new content atomically and leaves `q` absent as before. -/
theorem C8_atomic_write_witness :
    (alGet c8fs ("q".toList) = none ∧
      updateThreadMetadata c8fs ("q".toList) ("t".toList) []
        = (c8fs, Except.error notFoundMsg)) ∧
    (alGet c8fs ("p".toList) = some c8doc ∧
      updateThreadMetadata c8fs ("p".toList) ("t".toList) []
        = (alSet c8fs ("p".toList) (updateContent c8doc ("t".toList) []),
           Except.ok (parseThreadFileCore (updateContent c8doc ("t".toList) [])
             ("t".toList))) ∧
      alGet (updateThreadMetadata c8fs ("p".toList) ("t".toList) []).1 ("q".toList)
        = alGet c8fs ("q".toList)) :=
  ⟨⟨by decide, (C8_atomic_write c8fs ("q".toList) ("t".toList) []).1 (by decide)⟩,
   ⟨by decide,
    ((C8_atomic_write c8fs ("p".toList) ("t".toList) []).2 c8doc (by decide)).1,
    ((C8_atomic_write c8fs ("p".toList) ("t".toList) []).2 c8doc (by decide)).2
      ("q".toList) (by decide)⟩⟩

theorem pstrip_cons_ws {c : Char} (hc : pyws c = true) (l : Str) :
    pstrip (c :: l) = pstrip l := by
  unfold pstrip
  rw [List.dropWhile_cons, if_pos hc]

/-- Parsed titles are tight and nonempty whenever the default is. -/
theorem parseTitle_tight (ls : List Str) (d : Str) (hd : pstrip d = d) (hd0 : d ≠ []) :
    pstrip (parseHeaderLines ls d).1 = (parseHeaderLines ls d).1 ∧
    (parseHeaderLines ls d).1 ≠ [] := by
  cases ls with
  | nil => exact ⟨hd, hd0⟩
  | cons l0 rest =>
    by_cases hs : startsWithL ['#'] (pstrip l0) = true
    · have h1 : (parseHeaderLines (l0 :: rest) d).1
          = if pstrip ((pstrip l0).dropWhile (fun c => c = '#')) = [] then d
            else pstrip ((pstrip l0).dropWhile (fun c => c = '#')) := by
        rw [parseHeaderLines_cons, if_pos hs]
      by_cases hb : pstrip ((pstrip l0).dropWhile (fun c => c = '#')) = []
      · rw [h1, if_pos hb]
        exact ⟨hd, hd0⟩
      · rw [h1, if_neg hb]
        exact ⟨pstrip_idem _, hb⟩
    · have h1 : (parseHeaderLines (l0 :: rest) d).1 = d := by
        rw [parseHeaderLines_cons, if_neg hs]
      rw [h1]
      exact ⟨hd, hd0⟩

/-- Re-reading the rendered `# <title>` line recovers a tight nonempty title. -/
theorem reparse_title (t : Str) (m' : KVList) (o' : List Str)
    (hts : pstrip t = t) (ht0 : t ≠ []) (d : Str) :
    (parseHeaderLines (('#' :: ' ' :: t) :: (renderPairs m' o').map lineOf) d).1 = t := by
  obtain ⟨c0, t', hct⟩ : ∃ c0 t', t = c0 :: t' := by
    cases t with
    | nil => exact absurd rfl ht0
    | cons a b => exact ⟨a, b, rfl⟩
  subst hct
  have hps : pstrip ('#' :: ' ' :: c0 :: t') = '#' :: ' ' :: c0 :: t' := by
    apply pstrip_eq_self
    · intro c hc
      injection hc with hc
      subst hc
      decide
    · intro c hc
      rw [List.getLast?_cons_cons, List.getLast?_cons_cons] at hc
      exact pstrip_last_of_self hts hc
  have hsw : startsWithL ['#'] (pstrip ('#' :: ' ' :: c0 :: t')) = true := by
    rw [hps]
    simp [startsWithL]
  rw [parseHeaderLines_cons, if_pos hsw, hps]
  have hdw : ('#' :: ' ' :: c0 :: t').dropWhile (fun c => decide (c = '#'))
      = ' ' :: c0 :: t' := by
    rw [List.dropWhile_cons, if_pos (by decide), List.dropWhile_cons, if_neg (by decide)]
  rw [hdw, pstrip_cons_ws (show pyws ' ' = true from by decide), hts]
  rw [if_neg (show ¬ (c0 :: t' = []) from by simp)]

theorem applyUpdates_title_blank (tmo : Str × KVList × List Str) (k s : Str)
    (hk : pstrip k = "Title".toList) (hs : pstrip s = []) :
    applyUpdates tmo [(k, some s)] = tmo := by
  obtain ⟨t, m, o⟩ := tmo
  conv_lhs => unfold applyUpdates
  rw [if_pos hk]
  rw [show ((some s : Option Str)).getD ("None".toList) = s from rfl]
  rw [if_pos hs]
  exact applyUpdates_nil _

/-- C9: on an existing document, an update whose (stripped) key is `Title`
with a whitespace-only value leaves the title alone: the update loop keeps
the parsed title, the rewritten file re-parses to the same title, and the
call succeeds.  Hypotheses: the default title (the file stem) is a tight
nonempty newline-free name. -/
theorem C9_blank_title_kept (fs : KVList) (path stem content : Str) (k s : Str)
    (hget : alGet fs path = some content) (hnl : '\n' ∉ stem)
    (hds : pstrip stem = stem) (hd0 : stem ≠ [])
    (hk : pstrip k = "Title".toList) (hs : pstrip s = []) :
    (applyUpdates (parseHeaderLines (splitHeaderAndBody content).1 stem) [(k, some s)]).1
      = (parseHeaderLines (splitHeaderAndBody content).1 stem).1 ∧
    (parseThreadFileCore (updateContent content stem [(k, some s)]) stem).title
      = (parseThreadFileCore content stem).title ∧
    (updateThreadMetadata fs path stem [(k, some s)]).2
      = Except.ok (parseThreadFileCore (updateContent content stem [(k, some s)]) stem) := by
  have hgm : goodMap (parseHeaderLines (splitHeaderAndBody content).1 stem).2.1 :=
    (parseHeaderLines_inv (splitHeaderAndBody content).1 stem).1
  have hau := applyUpdates_title_blank
    (parseHeaderLines (splitHeaderAndBody content).1 stem) k s hk hs
  have ht : '\n' ∉ (parseHeaderLines (splitHeaderAndBody content).1 stem).1 :=
    parseTitle_no_nl _ stem (headerLines_no_nl content) hnl
  have htight := parseTitle_tight (splitHeaderAndBody content).1 stem hds hd0
  have hsplit := splitHB_update content stem [(k, some s)]
    (by rw [hau]; exact hgm) (by rw [hau]; exact ht)
  rw [hau] at hsplit
  have hhdr : (splitHeaderAndBody (updateContent content stem [(k, some s)])).1
      = ('#' :: ' ' :: (parseHeaderLines (splitHeaderAndBody content).1 stem).1)
        :: (renderPairs (parseHeaderLines (splitHeaderAndBody content).1 stem).2.1
             (parseHeaderLines (splitHeaderAndBody content).1 stem).2.2).map lineOf := by
    rw [hsplit]
  refine ⟨by rw [hau], ?_, ?_⟩
  · rw [doc_title, doc_title, hhdr]
    exact reparse_title _ _ _ htight.1 htight.2 stem
  · unfold updateThreadMetadata
    rw [hget]

def c9doc : Str :=
  ("# My Title\nStatus: OPEN\n\n---\nEntry: B 2024-01-01T00:00:00Z\n\nhi").toList

def c9fs : KVList := [("p".toList, c9doc)]

set_option maxHeartbeats 2000000 in
/-- Witness for C9: updating `" Title "` with the blank value `" "` keeps
the parsed title `My Title` through the update and the re-parse. -/
theorem C9_blank_title_kept_witness :
    (alGet c9fs ("p".toList) = some c9doc ∧ '\n' ∉ "t".toList ∧
      pstrip ("t".toList) = "t".toList ∧ "t".toList ≠ [] ∧
      pstrip (" Title ".toList) = "Title".toList ∧ pstrip (" ".toList) = []) ∧
    ((applyUpdates (parseHeaderLines (splitHeaderAndBody c9doc).1 ("t".toList))
        [(" Title ".toList, some (" ".toList))]).1
      = (parseHeaderLines (splitHeaderAndBody c9doc).1 ("t".toList)).1 ∧
     (parseThreadFileCore (updateContent c9doc ("t".toList)
        [(" Title ".toList, some (" ".toList))]) ("t".toList)).title
      = (parseThreadFileCore c9doc ("t".toList)).title ∧
     (updateThreadMetadata c9fs ("p".toList) ("t".toList)
        [(" Title ".toList, some (" ".toList))]).2
      = Except.ok (parseThreadFileCore (updateContent c9doc ("t".toList)
          [(" Title ".toList, some (" ".toList))]) ("t".toList))) :=
  ⟨⟨by decide, by decide, by decide, by decide, by decide, by decide⟩,
   C9_blank_title_kept c9fs ("p".toList) ("t".toList) c9doc
     (" Title ".toList) (" ".toList)
     (by decide) (by decide) (by decide) (by decide) (by decide) (by decide)⟩

/-! ## C2: the full segmenter analysis -/

theorem append_factor {α : Type} : ∀ (A C : List α) {B D : List α},
    A ++ B = C ++ D → A.length ≤ C.length → ∃ V, C = A ++ V ∧ B = V ++ D
  | [], C, B, D, h, _ => ⟨C, rfl, h⟩
  | a :: A, [], B, D, h, hlen => by simp at hlen
  | a :: A, c :: C, B, D, h, hlen => by
    rw [List.cons_append, List.cons_append] at h
    injection h with h1 h2
    subst h1
    obtain ⟨V, h3, h4⟩ := append_factor A C h2 (by
      simp only [List.length_cons] at hlen
      omega)
    exact ⟨V, by rw [h3, List.cons_append], h4⟩

/-- A successful delimiter attempt starts with the three dashes. -/
theorem tryDelim_shape {cs r : Str} (h : tryDelim cs = some r) :
    ∃ t, cs = '-' :: '-' :: '-' :: t := by
  rw [tryDelim.eq_def] at h
  split at h
  · rename_i t
    exact ⟨t, rfl⟩
  · cases h

/-- Anatomy of a successful delimiter attempt: a nonempty all-whitespace run
ending in a newline, then the `Entry:`-prefixed remainder. -/
theorem tryDelim_some_decomp {t r : Str} (h : tryDelim ('-' :: '-' :: '-' :: t) = some r) :
    ∃ W, t = W ++ r ∧ W ≠ [] ∧ allWS W ∧ W.getLast? = some '\n' ∧
      startsWithL ("Entry:".toList) r = true := by
  unfold tryDelim at h
  dsimp only at h
  split at h
  · rename_i hcond
    injection hcond with h1 hcond
    injection hcond with h2 hcond
    injection hcond with h3 hcond
    subst hcond
    split at h
    · rename_i hif
      injection h with h
      subst h
      refine ⟨t.takeWhile pyws, (List.takeWhile_append_dropWhile pyws t).symm, hif.1, ?_,
        hif.2.1, hif.2.2⟩
      intro c hc
      exact List.mem_takeWhile_imp hc
    · cases h
  · cases h

/-- A found delimiter sits right after a newline of the scanned text. -/
theorem findDelim_decomp : ∀ {cs b a : Str}, findDelim cs = some (b, a) →
    ∃ d, cs = b ++ '\n' :: d ∧ tryDelim d = some a := by
  intro cs
  induction cs with
  | nil => intro b a h; cases h
  | cons c cs ih =>
    intro b a h
    by_cases hc : c = '\n'
    · subst hc
      rw [findDelim_cons_nl] at h
      cases htd : tryDelim cs with
      | some r =>
        rw [htd] at h
        injection h with h
        injection h with h1 h2
        subst h1
        subst h2
        exact ⟨cs, rfl, htd⟩
      | none =>
        rw [htd] at h
        rw [Option.map_eq_some'] at h
        obtain ⟨⟨b', a'⟩, hfd, hp⟩ := h
        injection hp with h1 h2
        subst h1
        subst h2
        obtain ⟨d, hcs, htd'⟩ := ih hfd
        exact ⟨d, by rw [hcs]; rfl, htd'⟩
    · rw [findDelim_cons_ne hc] at h
      rw [Option.map_eq_some'] at h
      obtain ⟨⟨b', a'⟩, hfd, hp⟩ := h
      injection hp with h1 h2
      subst h1
      subst h2
      obtain ⟨d, hcs, htd'⟩ := ih hfd
      exact ⟨d, by rw [hcs]; rfl, htd'⟩

/-- A bare `---` line at a position where the delimiter does NOT match is
never consumed as a split point: it survives inside a single segment of the
split, at the same distance-from-`---` suffix (`Y = V ++ Z`). -/
theorem dash_in_segment : ∀ (n : Nat) (cs : Str), cs.length ≤ n →
    ∀ (X Y : Str), cs = X ++ '\n' :: ('-' :: '-' :: '-' :: Y) →
    tryDelim ('-' :: '-' :: '-' :: Y) = none →
    ∃ s ∈ splitSegs cs, ∃ U V Z, s = U ++ '\n' :: ('-' :: '-' :: '-' :: V) ∧ Y = V ++ Z
  | n, cs, hlen, X, Y, hXY, hnone => by
    cases hfd : findDelim cs with
    | none =>
      rw [splitSegs_none hfd]
      exact ⟨cs, List.mem_singleton_self cs, X, Y, [], hXY, (List.append_nil Y).symm⟩
    | some ba =>
      obtain ⟨b, a⟩ := ba
      obtain ⟨d, hbd, htd⟩ := findDelim_decomp hfd
      rw [splitSegs_some hfd]
      have heq : X ++ '\n' :: ('-' :: '-' :: '-' :: Y) = b ++ '\n' :: d :=
        hXY.symm.trans hbd
      rcases Nat.lt_or_ge X.length b.length with hlt | hge
      · -- the occurrence lies inside the first segment b
        have heq2 : (X ++ ['\n']) ++ ('-' :: '-' :: '-' :: Y) = b ++ '\n' :: d := by
          rw [List.append_assoc]
          exact heq
        obtain ⟨V, hbV, hYV⟩ := append_factor (X ++ ['\n']) b heq2 (by
          rw [List.length_append, List.length_singleton]
          omega)
        cases V with
        | nil =>
          rw [List.nil_append] at hYV
          injection hYV with h1 _
          exact absurd h1 (by decide)
        | cons v1 V1 =>
          rw [List.cons_append] at hYV
          injection hYV with h1 hYV
          subst h1
          cases V1 with
          | nil =>
            rw [List.nil_append] at hYV
            injection hYV with h1 _
            exact absurd h1 (by decide)
          | cons v2 V2 =>
            rw [List.cons_append] at hYV
            injection hYV with h1 hYV
            subst h1
            cases V2 with
            | nil =>
              rw [List.nil_append] at hYV
              injection hYV with h1 _
              exact absurd h1 (by decide)
            | cons v3 V3 =>
              rw [List.cons_append] at hYV
              injection hYV with h1 hYV
              subst h1
              refine ⟨b, List.mem_cons_self b _, X, V3, '\n' :: d, ?_, hYV⟩
              rw [hbV, List.append_assoc]
              rfl
      · -- b is a prefix of X: the occurrence lies at or after the delimiter
        have heq2 : b ++ '\n' :: d = X ++ '\n' :: ('-' :: '-' :: '-' :: Y) := heq.symm
        obtain ⟨V2, hXV, hdV⟩ := append_factor b X heq2 hge
        cases V2 with
        | nil =>
          rw [List.nil_append] at hdV
          injection hdV with _ h2
          rw [h2, hnone] at htd
          exact Option.noConfusion htd
        | cons w V3 =>
          rw [List.cons_append] at hdV
          injection hdV with h1 hdV
          subst h1
          obtain ⟨t, hts⟩ := tryDelim_shape htd
          rw [hts] at htd
          obtain ⟨W, htW, hWne, hWws, hWl, hEa⟩ := tryDelim_some_decomp htd
          have hdd : V3 ++ '\n' :: ('-' :: '-' :: '-' :: Y) = '-' :: '-' :: '-' :: (W ++ a) :=
            hdV.symm.trans (hts.trans (by rw [htW]))
          cases V3 with
          | nil =>
            rw [List.nil_append] at hdd
            injection hdd with h1 _
            exact absurd h1 (by decide)
          | cons u1 U1 =>
            rw [List.cons_append] at hdd
            injection hdd with h1 hdd
            subst h1
            cases U1 with
            | nil =>
              rw [List.nil_append] at hdd
              injection hdd with h1 _
              exact absurd h1 (by decide)
            | cons u2 U2 =>
              rw [List.cons_append] at hdd
              injection hdd with h1 hdd
              subst h1
              cases U2 with
              | nil =>
                rw [List.nil_append] at hdd
                injection hdd with h1 _
                exact absurd h1 (by decide)
              | cons u3 U3 =>
                rw [List.cons_append] at hdd
                injection hdd with h1 hdd
                subst h1
                -- hdd : U3 ++ '\n' :: ('-'::'-'::'-'::Y) = W ++ a
                rcases Nat.lt_or_ge U3.length W.length with hlt2 | hge2
                · -- the occurrence cannot start inside the whitespace run
                  have heq3 : (U3 ++ ['\n']) ++ ('-' :: '-' :: '-' :: Y) = W ++ a := by
                    rw [List.append_assoc]
                    exact hdd
                  obtain ⟨θ, hWθ, hYθ⟩ := append_factor (U3 ++ ['\n']) W heq3 (by
                    rw [List.length_append, List.length_singleton]
                    omega)
                  cases θ with
                  | nil =>
                    rw [List.nil_append] at hYθ
                    obtain ⟨ar, har⟩ := startsWithL_ex hEa
                    rw [har] at hYθ
                    injection hYθ with h1 _
                    exact absurd h1 (by decide)
                  | cons g θ2 =>
                    rw [List.cons_append] at hYθ
                    injection hYθ with h1 _
                    have hgW : g ∈ W := by
                      rw [hWθ]
                      exact List.mem_append.mpr (Or.inr (List.mem_cons_self _ _))
                    have hws := hWws g hgW
                    rw [← h1] at hws
                    exact absurd hws (by decide)
                · -- the occurrence lies inside the after-part a: recurse
                  have heq3 : W ++ a = U3 ++ '\n' :: ('-' :: '-' :: '-' :: Y) := hdd.symm
                  obtain ⟨V5, hU3e, haV⟩ := append_factor W U3 heq3 hge2
                  cases n with
                  | zero =>
                    rw [Nat.le_zero, List.length_eq_zero] at hlen
                    subst hlen
                    exact absurd hfd (by simp [findDelim])
                  | succ n =>
                    have hlt3 := findDelim_length hfd
                    obtain ⟨s, hs, U, V, Z, hsU, hYVZ⟩ :=
                      dash_in_segment n a (by omega) V5 Y haV hnone
                    exact ⟨s, List.mem_cons_of_mem b hs, U, V, Z, hsU, hYVZ⟩

/-- `splitlines` cuts cleanly at any interior newline. -/
theorem splitLines_mid_nl : ∀ (A B : Str),
    splitLines (A ++ '\n' :: B) = splitLines (A ++ ['\n']) ++ splitLines B
  | [], B => by
    rw [List.nil_append, List.nil_append, splitLines_cons_nl, splitLines_cons_nl]
    rfl
  | c :: A, B => by
    by_cases hc : c = '\n'
    · subst hc
      rw [List.cons_append, List.cons_append, splitLines_cons_nl, splitLines_cons_nl,
        splitLines_mid_nl A B]
      rfl
    · rw [List.cons_append, List.cons_append, splitLines_cons hc, splitLines_cons hc,
        splitLines_mid_nl A B]
      have hne : splitLines (A ++ ['\n']) ≠ [] := by
        rw [Ne, splitLines_eq_nil_iff]
        simp
      cases hsa : splitLines (A ++ ['\n']) with
      | nil => exact absurd hsa hne
      | cons l ls => rfl

/-- Right-stripping past text that ends in a dash only trims the tail. -/
theorem rstrip_append_dash (A V : Str) (hA : A.getLast? = some '-') :
    ((A ++ V).reverse.dropWhile pyws).reverse = A ++ (V.reverse.dropWhile pyws).reverse := by
  rw [List.reverse_append, List.dropWhile_append]
  by_cases hv : (V.reverse.dropWhile pyws).isEmpty = true
  · rw [if_pos hv]
    have hh : A.reverse.head? = some '-' := by
      rw [List.head?_reverse]
      exact hA
    have hvnil : V.reverse.dropWhile pyws = [] := by
      cases hx : V.reverse.dropWhile pyws with
      | nil => rfl
      | cons y ys => rw [hx] at hv; cases hv
    cases har : A.reverse with
    | nil => rw [har] at hh; cases hh
    | cons c t =>
      rw [har] at hh
      injection hh with hh
      subst hh
      rw [dropWhile_cons_of_neg (by decide), ← har, List.reverse_reverse,
        hvnil, List.reverse_nil, List.append_nil]
  · rw [if_neg hv, List.reverse_append, List.reverse_reverse]

/-- The dash line survives as a line after a right-strip of its tail. -/
theorem dash_mem_R (V : Str) (hV : V = [] ∨ ∃ V2, V = '\n' :: V2) :
    ('-' :: '-' :: '-' :: []) ∈ splitLines ('-' :: '-' :: '-' :: (V.reverse.dropWhile pyws).reverse) := by
  have hR : (V.reverse.dropWhile pyws).reverse = [] ∨
      ∃ R2, (V.reverse.dropWhile pyws).reverse = '\n' :: R2 := by
    cases hV with
    | inl h => subst h; left; rfl
    | inr h =>
      obtain ⟨V2, hV2⟩ := h
      subst hV2
      rw [show ('\n' :: V2 : Str).reverse = V2.reverse ++ ['\n'] from List.reverse_cons '\n' V2]
      rw [List.dropWhile_append]
      by_cases h2 : (V2.reverse.dropWhile pyws).isEmpty = true
      · rw [if_pos h2]
        left
        rfl
      · rw [if_neg h2]
        right
        rw [List.reverse_append]
        exact ⟨(V2.reverse.dropWhile pyws).reverse, rfl⟩
  cases hR with
  | inl h =>
    rw [h, splitLines_single (by decide) (by decide)]
    exact List.mem_singleton_self _
  | inr h =>
    obtain ⟨R2, hR2⟩ := h
    rw [hR2]
    rw [show ('-' :: '-' :: '-' :: ('\n' :: R2) : Str)
        = ('-' :: '-' :: '-' :: []) ++ '\n' :: R2 from rfl]
    rw [splitLines_append_nl (by decide)]
    exact List.mem_cons_self _ _

/-- A stripped text that begins with a bare `---` line keeps it as its first
line. -/
theorem dash_head_lines (V : Str) (hV : V = [] ∨ ∃ V2, V = '\n' :: V2) :
    ('-' :: '-' :: '-' :: []) ∈ splitLines (pstrip ('-' :: '-' :: '-' :: V)) := by
  unfold pstrip
  rw [dropWhile_cons_of_neg (show pyws '-' = false from by decide)]
  rw [show ('-' :: '-' :: '-' :: V : Str) = ('-' :: '-' :: '-' :: []) ++ V from rfl]
  rw [rstrip_append_dash ('-' :: '-' :: '-' :: []) V (by decide)]
  exact dash_mem_R V hV

/-- A bare `---` line inside a text survives `strip` + `splitlines` as a
full line. -/
theorem dash_mid_lines (U V : Str) (hV : V = [] ∨ ∃ V2, V = '\n' :: V2) :
    ('-' :: '-' :: '-' :: []) ∈ splitLines (pstrip (U ++ '\n' :: ('-' :: '-' :: '-' :: V))) := by
  rw [show U ++ '\n' :: ('-' :: '-' :: '-' :: V)
      = (U ++ ['\n']) ++ ('-' :: '-' :: '-' :: V) from by rw [List.append_assoc]; rfl]
  unfold pstrip
  rw [List.dropWhile_append]
  by_cases hU : ((U ++ ['\n']).dropWhile pyws).isEmpty = true
  · rw [if_pos hU]
    exact dash_head_lines V hV
  · rw [if_neg hU]
    have hDne : (U ++ ['\n']).dropWhile pyws ≠ [] := by
      intro hx
      rw [hx] at hU
      exact hU rfl
    have hDl : ((U ++ ['\n']).dropWhile pyws).getLast? = some '\n' := by
      have hsplit : (U ++ ['\n']).takeWhile pyws ++ (U ++ ['\n']).dropWhile pyws
          = U ++ ['\n'] := List.takeWhile_append_dropWhile pyws (U ++ ['\n'])
      have hlast : (U ++ ['\n']).getLast? = some '\n' := List.getLast?_concat U
      rw [← hsplit, List.getLast?_append_of_ne_nil _ hDne] at hlast
      exact hlast
    obtain ⟨D2, hD2⟩ : ∃ D2, (U ++ ['\n']).dropWhile pyws = D2 ++ ['\n'] :=
      List.getLast?_eq_some_iff.mp hDl
    rw [hD2]
    rw [show (D2 ++ ['\n']) ++ ('-' :: '-' :: '-' :: V)
        = ((D2 ++ ['\n']) ++ ('-' :: '-' :: '-' :: [])) ++ V from by simp]
    rw [rstrip_append_dash ((D2 ++ ['\n']) ++ ('-' :: '-' :: '-' :: [])) V
      (by rw [List.getLast?_append_of_ne_nil _ (by decide)]; rfl)]
    rw [show ((D2 ++ ['\n']) ++ ('-' :: '-' :: '-' :: [])) ++ (V.reverse.dropWhile pyws).reverse
        = D2 ++ '\n' :: ('-' :: '-' :: '-' :: (V.reverse.dropWhile pyws).reverse) from by simp]
    rw [splitLines_mid_nl]
    exact List.mem_append.mpr (Or.inr (dash_mem_R V hV))

theorem joinNL_cons_ne (l : Str) {ls : List Str} (h : ls ≠ []) :
    joinNL (l :: ls) = l ++ '\n' :: joinNL ls := by
  cases ls with
  | nil => exact absurd rfl h
  | cons y ls => rfl

theorem joinNL_factor : ∀ (L1 : List Str) (x : Str) (L2 : List Str), L1 ≠ [] →
    ∃ U, joinNL (L1 ++ x :: L2)
      = U ++ '\n' :: (x ++ (if L2 = [] then [] else '\n' :: joinNL L2))
  | [], x, L2, h => absurd rfl h
  | [a], x, L2, _ => by
    refine ⟨a, ?_⟩
    show joinNL (a :: x :: L2) = _
    rw [joinNL_cons_ne a (by simp)]
    cases L2 with
    | nil =>
      rw [if_pos rfl, List.append_nil]
      rfl
    | cons y L2' =>
      rw [if_neg (by simp)]
      rfl
  | a :: b :: L1, x, L2, _ => by
    obtain ⟨U, hU⟩ := joinNL_factor (b :: L1) x L2 (by simp)
    refine ⟨a ++ '\n' :: U, ?_⟩
    show joinNL (a :: ((b :: L1) ++ x :: L2)) = _
    rw [joinNL_cons_ne a (by simp), hU]
    simp

/-- A bare `---` line among the (newline-free) body lines survives the final
`"\n".join(...).strip()` as a full line. -/
theorem dash_mem_pstrip_join (L : List Str) (hmem : ('-' :: '-' :: '-' :: []) ∈ L) :
    ('-' :: '-' :: '-' :: []) ∈ splitLines (pstrip (joinNL L)) := by
  obtain ⟨L1, L2, hL⟩ := List.append_of_mem hmem
  subst hL
  cases hL1 : L1 with
  | nil =>
    cases L2 with
    | nil => decide
    | cons y L2' =>
      show ('-' :: '-' :: '-' :: []) ∈
        splitLines (pstrip (joinNL (('-' :: '-' :: '-' :: []) :: y :: L2')))
      rw [joinNL_cons_ne _ (by simp)]
      exact dash_head_lines ('\n' :: joinNL (y :: L2')) (Or.inr ⟨joinNL (y :: L2'), rfl⟩)
  | cons a L1' =>
    obtain ⟨U, hU⟩ := joinNL_factor (a :: L1') ('-' :: '-' :: '-' :: []) L2 (by simp)
    rw [hU]
    have htail : ('-' :: '-' :: '-' :: []) ++
          (if L2 = [] then [] else '\n' :: joinNL L2)
        = '-' :: '-' :: '-' :: (if L2 = [] then ([] : Str) else '\n' :: joinNL L2) := rfl
    rw [htail]
    apply dash_mid_lines
    by_cases h2 : L2 = []
    · rw [if_pos h2]
      left
      rfl
    · rw [if_neg h2]
      right
      exact ⟨joinNL L2, rfl⟩

theorem segMeta_sub : ∀ (m : KVList) (ls : List Str) (l : Str),
    l ∈ (segMeta m ls).2 → l ∈ ls
  | m, [], l, h => h
  | m, l0 :: ls, l, h => by
    rw [segMeta_cons] at h
    by_cases h0 : pstrip l0 = []
    · rw [if_pos h0] at h
      exact List.mem_cons_of_mem l0 h
    · rw [if_neg h0] at h
      cases hm : matchFieldLoose l0 with
      | none =>
        rw [hm] at h
        exact h
      | some kv =>
        rw [hm] at h
        exact List.mem_cons_of_mem l0 (segMeta_sub _ ls l h)

/-- The sub-header scan never consumes a nonblank line that is not a field
line: it stays for the body. -/
theorem segMeta_keeps_nomatch : ∀ (m : KVList) (ls : List Str) (l : Str),
    l ∈ ls → matchFieldLoose l = none → pstrip l ≠ [] → l ∈ (segMeta m ls).2
  | m, [], l, hl, _, _ => absurd hl (List.not_mem_nil l)
  | m, l0 :: ls, l, hl, hnm, hnb => by
    rw [segMeta_cons]
    by_cases h0 : pstrip l0 = []
    · rw [if_pos h0]
      rcases List.mem_cons.mp hl with h | h
      · subst h
        exact absurd h0 hnb
      · exact h
    · rw [if_neg h0]
      cases hm : matchFieldLoose l0 with
      | none => exact hl
      | some kv =>
        rcases List.mem_cons.mp hl with h | h
        · subst h
          rw [hnm] at hm
          cases hm
        · exact segMeta_keeps_nomatch _ ls l h hnm hnb

theorem mkEntry_body (seg : Str) :
    (mkEntry seg).body = pstrip (joinNL (segMeta [] (splitLines seg)).2) := rfl

theorem mkEntry_mem_parseEntries {body s : Str} (hb : body ≠ [])
    (hs : s ∈ splitSegs (pstrip body)) (hsnb : ¬ pstrip s = []) :
    mkEntry (pstrip s) ∈ parseEntries body := by
  unfold parseEntries
  rw [if_neg hb]
  rw [List.mem_filterMap]
  refine ⟨s, hs, ?_⟩
  show (if pstrip s = [] then none else some (mkEntry (pstrip s)))
    = some (mkEntry (pstrip s))
  rw [if_neg hsnb]

theorem parseEntries_count : ∀ (segs : List Str),
    (segs.filterMap (fun seg =>
      if pstrip seg = [] then none else some (mkEntry (pstrip seg)))).length
      = segs.countP (fun s => decide (¬ pstrip s = []))
  | [] => rfl
  | x :: segs => by
    rw [List.filterMap_cons, List.countP_cons]
    by_cases hx : pstrip x = []
    · rw [if_pos hx]
      have hd : (decide (¬ pstrip x = [])) = false := by simp [hx]
      rw [hd, if_neg (by simp), parseEntries_count segs, Nat.add_zero]
    · rw [if_neg hx]
      have hd : (decide (¬ pstrip x = [])) = true := by simp [hx]
      rw [hd, if_pos rfl, List.length_cons, parseEntries_count segs]

/-- The bare `---` line of an enclosing segment survives entry building as a
line of the entry's body: it is not a field line, so the sub-header scan
leaves it, and joining and stripping keep it a full line. -/
theorem dash_in_entry_body {s : Str} (U V : Str)
    (hsU : s = U ++ '\n' :: ('-' :: '-' :: '-' :: V))
    (hV : V = [] ∨ ∃ V2, V = '\n' :: V2) :
    ('-' :: '-' :: '-' :: []) ∈ splitLines (mkEntry (pstrip s)).body := by
  rw [mkEntry_body]
  have h1 : ('-' :: '-' :: '-' :: []) ∈ splitLines (pstrip s) := by
    rw [hsU]
    exact dash_mid_lines U V hV
  have h2 := segMeta_keeps_nomatch [] (splitLines (pstrip s)) ('-' :: '-' :: '-' :: [])
    h1 (by decide) (by decide)
  exact dash_mem_pstrip_join _ h2

/-- C2: a corrected account of the entry segmenter.  The split fires at
`newline, ---, whitespace run ending in a newline, Entry:` — the `\s*` may
absorb blank lines.  Hence (1) when the body holds no such delimiter the
parsed entry count is at most one; (2) every produced segment after the
first begins with `Entry:`; (3) for every body the entry count equals the
number of nonblank segments, so only qualifying delimiters ever add an
entry; and (4) a bare `---` line at any position where the delimiter does
not match — even in a body that holds qualifying delimiters elsewhere — is
never consumed as a split point: it stays inside a single segment, that
segment yields an entry of the parse, and the `---` survives verbatim as a
line of that entry's body. -/
theorem C2_segmenter_amended (body : Str) :
    (findDelim (pstrip body) = none → (parseEntries body).length ≤ 1) ∧
    (∀ s ∈ (splitSegs (pstrip body)).tail, startsWithL ("Entry:".toList) s = true) ∧
    (body ≠ [] → (parseEntries body).length
        = (splitSegs (pstrip body)).countP (fun s => decide (¬ pstrip s = []))) ∧
    (∀ X Y, pstrip body = X ++ '\n' :: ('-' :: '-' :: '-' :: Y) →
      tryDelim ('-' :: '-' :: '-' :: Y) = none →
      (Y = [] ∨ ∃ Y2, Y = '\n' :: Y2) →
      ∃ s ∈ splitSegs (pstrip body), ∃ U V Z,
        s = U ++ '\n' :: ('-' :: '-' :: '-' :: V) ∧ Y = V ++ Z ∧
        mkEntry (pstrip s) ∈ parseEntries body ∧
        ('-' :: '-' :: '-' :: []) ∈ splitLines (mkEntry (pstrip s)).body) := by
  refine ⟨?_, ?_, ?_, ?_⟩
  · intro hfd
    unfold parseEntries
    by_cases hb : body = []
    · rw [if_pos hb]
      exact Nat.zero_le 1
    · rw [if_neg hb, splitSegs_none hfd]
      exact filterMap_singleton_len _ _
  · intro s hs
    cases hfd : findDelim (pstrip body) with
    | none =>
      rw [splitSegs_none hfd] at hs
      cases hs
    | some ba =>
      obtain ⟨b, a⟩ := ba
      rw [splitSegs_some hfd] at hs
      exact splitSegs_entry a.length a (Nat.le_refl _) (findDelim_after hfd) s hs
  · intro hb
    unfold parseEntries
    rw [if_neg hb]
    exact parseEntries_count _
  · intro X Y hocc hnone hY
    obtain ⟨s, hs, U, V, Z, hsU, hYVZ⟩ :=
      dash_in_segment (pstrip body).length (pstrip body) (Nat.le_refl _) X Y hocc hnone
    have hV : V = [] ∨ ∃ V2, V = '\n' :: V2 := by
      cases hY with
      | inl h =>
        subst h
        left
        exact (List.append_eq_nil.mp hYVZ.symm).1
      | inr h =>
        obtain ⟨Y2, hY2⟩ := h
        subst hY2
        cases V with
        | nil =>
          left
          rfl
        | cons v V' =>
          right
          rw [List.cons_append] at hYVZ
          injection hYVZ with h1 _
          exact ⟨V', by rw [← h1]⟩
    have hbody : body ≠ [] := by
      intro hx
      subst hx
      rw [show pstrip ([] : Str) = [] from rfl] at hocc
      have hlenc := congrArg List.length hocc
      simp at hlenc
      omega
    have hdash_s : ('-' : Char) ∈ s := by
      rw [hsU]
      simp
    have hsnb : ¬ pstrip s = [] := pstrip_ne_nil_of_mem hdash_s (by decide)
    exact ⟨s, hs, U, V, Z, hsU, hYVZ,
      mkEntry_mem_parseEntries hbody hs hsnb,
      dash_in_entry_body U V hsU hV⟩

def c2X : Str := ("Entry: A 2024-01-01T00:00:00Z\nx").toList

def c2Y : Str := ("\nplain\n---\nEntry: B 2024-01-02T00:00:00Z\ny").toList

def c2wbody : Str :=
  ("Entry: A 2024-01-01T00:00:00Z\nx\n---\nplain\n---\nEntry: B 2024-01-02T00:00:00Z\ny").toList

set_option maxHeartbeats 2000000 in
/-- Witness for the amended C2 on a body that holds BOTH a qualifying
delimiter (the second `---`, followed by `Entry:`) and a bare `---` line
followed by `plain`, which does not qualify: the entry count equals the
number of nonblank segments, and the bare `---` stays inside one segment
and appears verbatim as a line of that entry's body. -/
theorem C2_segmenter_amended_witness :
    (pstrip c2wbody = c2X ++ '\n' :: ('-' :: '-' :: '-' :: c2Y) ∧
     tryDelim ('-' :: '-' :: '-' :: c2Y) = none ∧
     (c2Y = [] ∨ ∃ Y2, c2Y = '\n' :: Y2) ∧ c2wbody ≠ []) ∧
    ((parseEntries c2wbody).length
        = (splitSegs (pstrip c2wbody)).countP (fun s => decide (¬ pstrip s = [])) ∧
     ∃ s ∈ splitSegs (pstrip c2wbody), ∃ U V Z,
        s = U ++ '\n' :: ('-' :: '-' :: '-' :: V) ∧ c2Y = V ++ Z ∧
        mkEntry (pstrip s) ∈ parseEntries c2wbody ∧
        ('-' :: '-' :: '-' :: []) ∈ splitLines (mkEntry (pstrip s)).body) :=
  ⟨⟨by decide, by decide,
    Or.inr ⟨("plain\n---\nEntry: B 2024-01-02T00:00:00Z\ny").toList, by decide⟩, by decide⟩,
   ⟨(C2_segmenter_amended c2wbody).2.2.1 (by decide),
    (C2_segmenter_amended c2wbody).2.2.2 c2X c2Y (by decide) (by decide)
      (Or.inr ⟨("plain\n---\nEntry: B 2024-01-02T00:00:00Z\ny").toList, by decide⟩)⟩⟩
